import Mathlib

set_option maxHeartbeats 1000000

/-!
Shallow embedding of `src/bfs.c` (breadth-first maze traversal).

The C program mutates a `maze_t` in place and threads a singly linked queue of
visit records whose nodes carry a `parent` pointer.  Here the maze is a value
(`maze_t` with the 2-D cell array as a total function on `Int` indices, like
the C program's 100×100 array indexed by `int`), and the queue is a `List` of
records; a record's `parent` pointer becomes the index of the parent record in
the queue (records are only ever appended at the tail, so indices are stable,
exactly like the C node addresses).  Recursion on the growing queue and on the
parent chain is expressed with an explicit fuel parameter; fuel sufficiency is
proved separately (the traversal terminates).
-/

/-- `#define WALL '#'`. -/
def WALL : Char := '#'

/-- `#define PATH '.'`. -/
def PATH : Char := '.'

/-- One maze cell: the search state of `struct cell_s`.  The C struct also
stores the cell's own coordinates `x`/`y`; in this embedding a cell is always
addressed by its grid coordinates, so those two fields are not duplicated. -/
structure cell_t where
  cost : Int
  reach : Bool
  soln : Bool
  type : Char
deriving DecidableEq

/-- `struct maze_s`.  `cells` is total on `Int × Int` the way the C 2-D array
is total on its index range; only indices inside `rows × cols` are ever used
by the traversal. -/
structure maze_t where
  rows : Int
  cols : Int
  cost : Int
  soln : Bool
  cells : Int → Int → cell_t

/-- One queue node (`struct list_s`): the cell it references (by coordinates,
standing for the C cell pointer) and the parent node (by queue index, standing
for the C parent pointer; `none` for entrance roots). -/
structure rec_t where
  pos : Int × Int
  parent : Option Nat
deriving DecidableEq

/-- Functional update of one cell (`maze->cells[x][y].field = v`). -/
def updCell (m : maze_t) (x y : Int) (f : cell_t → cell_t) : maze_t :=
  { m with cells := fun a b => if a = x ∧ b = y then f (m.cells a b) else m.cells a b }

/-- Queue lookup by index, with a junk default (never used at valid indices). -/
def recAt (q : List rec_t) (j : Nat) : rec_t :=
  q.getD j ⟨(0, 0), none⟩

/-- The cost field stored at a position. -/
def costAt (m : maze_t) (p : Int × Int) : Int :=
  (m.cells p.1 p.2).cost

/-- `visit_cell` from bfs.c: mark the cell reachable, and if its cost is the
`-1` sentinel or the proposed cost is strictly smaller, store the proposed
cost and append a new record (parent = the record `i` being expanded). -/
def visit_cell (m : maze_t) (q : List rec_t) (i : Nat) (x y cost : Int) :
    maze_t × List rec_t :=
  let m1 := updCell m x y (fun c => { c with reach := true })
  if (m1.cells x y).cost < 0 ∨ cost < (m1.cells x y).cost then
    (updCell m1 x y (fun c => { c with cost := cost }), q ++ [⟨(x, y), some i⟩])
  else
    (m1, q)

/-- `flood_up`: guard `x >= 0` on the moving axis only, then the type check. -/
def flood_up (m : maze_t) (q : List rec_t) (i : Nat) (x y cost : Int) :
    maze_t × List rec_t :=
  if 0 ≤ x ∧ (m.cells x y).type = PATH then visit_cell m q i x y cost else (m, q)

/-- `flood_down`: guard `x < maze->rows` on the moving axis only. -/
def flood_down (m : maze_t) (q : List rec_t) (i : Nat) (x y cost : Int) :
    maze_t × List rec_t :=
  if x < m.rows ∧ (m.cells x y).type = PATH then visit_cell m q i x y cost else (m, q)

/-- `flood_left`: guard `y >= 0` on the moving axis only. -/
def flood_left (m : maze_t) (q : List rec_t) (i : Nat) (x y cost : Int) :
    maze_t × List rec_t :=
  if 0 ≤ y ∧ (m.cells x y).type = PATH then visit_cell m q i x y cost else (m, q)

/-- `flood_right`: guard `y < maze->cols` on the moving axis only. -/
def flood_right (m : maze_t) (q : List rec_t) (i : Nat) (x y cost : Int) :
    maze_t × List rec_t :=
  if y < m.cols ∧ (m.cells x y).type = PATH then visit_cell m q i x y cost else (m, q)

/-- The body of `recursive_flood` for one queue record: read the record's cell
coordinates and current cost, then attempt the four directions in source
order: right `(x, y+1)`, down `(x+1, y)`, left `(x, y-1)`, up `(x-1, y)`. -/
def expand (m : maze_t) (q : List rec_t) (i : Nat) : maze_t × List rec_t :=
  let x := (recAt q i).pos.1
  let y := (recAt q i).pos.2
  let cost := (m.cells x y).cost
  let r1 := flood_right m q i x (y + 1) (cost + 1)
  let r2 := flood_down r1.1 r1.2 i (x + 1) y (cost + 1)
  let r3 := flood_left r2.1 r2.2 i x (y - 1) (cost + 1)
  flood_up r3.1 r3.2 i (x - 1) y (cost + 1)

/-- `recursive_flood`: process queue records in order (`queue->next` becomes
index `i+1`), while the queue grows at the tail; ends when the record index
runs off the end of the queue.  The fuel argument is an embedding artifact;
the traversal with fuel `rows*cols` is proved to have converged. -/
def recursive_flood : Nat → maze_t → List rec_t → Nat → maze_t × List rec_t
  | 0, m, q, _ => (m, q)
  | fuel + 1, m, q, i =>
    if i < q.length then
      let r := expand m q i
      recursive_flood fuel r.1 r.2 (i + 1)
    else
      (m, q)

/-- `find_entries`: walk row 0 left to right (`lim` counts down from
`maze->cols`); each `PATH` cell gets `reach = TRUE`, `cost = 0` and is placed
at the tail of the queue with no parent (the C code prepends to an empty list
or appends to a non-empty one — both are tail placement in queue order). -/
def find_entries (m : maze_t) (x y : Int) (q : List rec_t) :
    Nat → maze_t × List rec_t
  | 0 => (m, q)
  | lim + 1 =>
    if (m.cells x y).type = PATH then
      let m1 := updCell m x y (fun c => { c with reach := true, cost := 0 })
      find_entries m1 x (y + 1) (q ++ [⟨(x, y), none⟩]) lim
    else
      find_entries m x (y + 1) q lim

/-- `find_exit`: scan the row at `x` left to right with accumulator `ex`
(best exit so far, a cell pointer in C, here its coordinates) and `cost`
(its cost, initially the `-1` sentinel); a reachable `PATH` cell replaces the
accumulator only when no exit is held yet or its cost is strictly smaller. -/
def find_exit (m : maze_t) (x y : Int) (ex : Option (Int × Int)) (cost : Int) :
    Nat → Option (Int × Int)
  | 0 => ex
  | lim + 1 =>
    if (m.cells x y).type = PATH ∧ (m.cells x y).reach = true ∧
        (cost < 0 ∨ (0 ≤ (m.cells x y).cost ∧ (m.cells x y).cost < cost)) then
      find_exit m x (y + 1) (some (x, y)) ((m.cells x y).cost) lim
    else
      find_exit m x (y + 1) ex cost lim

/-- `shortest_path`: scan the queue from node `node` (`queue->next` becomes
index `+1`, the terminal NULL becomes an index past the end) for the record
whose cell is `ex`; once found (`ex` becomes `none`, as the C passes NULL),
mark each cell on the parent chain with `soln = TRUE` and count, returning
`-1` at the root's absent parent so that the total is the hop count. -/
def shortest_path (Q : List rec_t) : Nat → maze_t → Option Nat → Option (Int × Int) →
    maze_t × Int
  | 0, m, _, _ => (m, -1)
  | _ + 1, m, none, _ => (m, -1)
  | fuel + 1, m, some j, ex =>
    match Q[j]? with
    | none => (m, -1)
    | some r =>
      if ex = none ∨ ex = some r.pos then
        let m1 := updCell m r.pos.1 r.pos.2 (fun c => { c with soln := true })
        let r2 := shortest_path Q fuel m1 r.parent none
        (r2.1, 1 + r2.2)
      else
        shortest_path Q fuel m (some (j + 1)) ex

/-- The state after seeding: `find_entries(*(maze->cells), NULL, maze->cols)`
run on row 0 from column 0. -/
def seedState (m : maze_t) : maze_t × List rec_t :=
  find_entries m 0 0 [] m.cols.toNat

/-- The state after the flood: `recursive_flood(maze, queue)` from the head of
the seeded queue.  The fuel `rows*cols` is an embedding artifact and is proved
sufficient (the queue never holds two records for one cell). -/
def floodState (m : maze_t) : maze_t × List rec_t :=
  recursive_flood (((seedState m).1.rows * (seedState m).1.cols).toNat)
    (seedState m).1 (seedState m).2 0

/-- The selected exit: `find_exit(maze->cells[LAST_ROW], NULL, NOTVISIT,
maze->cols)`. -/
def exitOf (m : maze_t) : Option (Int × Int) :=
  find_exit (floodState m).1 ((floodState m).1.rows - 1) 0 none (-1)
    (floodState m).1.cols.toNat

/-- The path reconstruction: `shortest_path(maze, queue, exit)` from the head
of the queue.  The fuel `2*|queue| + 2` covers the scan plus the strictly
index-decreasing parent chain. -/
def pathState (m : maze_t) (ex : Int × Int) : maze_t × Int :=
  shortest_path (floodState m).2 (2 * (floodState m).2.length + 2)
    (floodState m).1 (some 0) (some ex)

/-- `traverse_maze`: seed the queue with the entrances, flood, and if the last
row has a reachable exit, reconstruct the path, store its hop count in
`maze->cost` and set `maze->soln`. -/
def traverse_maze (m : maze_t) : maze_t :=
  match exitOf m with
  | some ex => { (pathState m ex).1 with cost := (pathState m ex).2, soln := true }
  | none => (floodState m).1

/-! ### Spec-side notions (bounds, adjacency, validity, reachability oracle) -/

/-- In-bounds position of the maze. -/
def InB (m : maze_t) (x y : Int) : Prop :=
  0 ≤ x ∧ x < m.rows ∧ 0 ≤ y ∧ y < m.cols

instance (m : maze_t) (x y : Int) : Decidable (InB m x y) := by
  unfold InB; infer_instance

/-- 4-directional axis adjacency of grid positions. -/
def adj (p q : Int × Int) : Prop :=
  q = (p.1, p.2 + 1) ∨ q = (p.1 + 1, p.2) ∨ q = (p.1, p.2 - 1) ∨ q = (p.1 - 1, p.2)

instance (p q : Int × Int) : Decidable (adj p q) := by
  unfold adj; infer_instance

/-- A freshly loaded cell: an assigned kind, the `-1` cost sentinel from
`read_cell`, and cleared flags from `calloc`. -/
def ValidCell (c : cell_t) : Prop :=
  (c.type = WALL ∨ c.type = PATH) ∧ c.cost = -1 ∧ c.reach = false ∧ c.soln = false

instance (c : cell_t) : Decidable (ValidCell c) := by
  unfold ValidCell; infer_instance

/-- A valid input maze, as the external reader delivers it: dimensions within
the fixed 100×100 maximum, the `calloc`-cleared solution fields, and every
in-bounds cell freshly loaded. -/
def ValidMaze (m : maze_t) : Prop :=
  1 ≤ m.rows ∧ m.rows ≤ 100 ∧ 1 ≤ m.cols ∧ m.cols ≤ 100 ∧
  m.cost = 0 ∧ m.soln = false ∧
  ∀ x : Nat, x < m.rows.toNat → ∀ y : Nat, y < m.cols.toNat →
    ValidCell (m.cells (x : Int) (y : Int))

instance (m : maze_t) : Decidable (ValidMaze m) := by
  unfold ValidMaze; infer_instance

/-- Reference reachability oracle: `ReachIn m n p` holds when `p` can be
reached from some entrance (an open cell of row 0) in `n` unit hops through
in-bounds open cells. -/
inductive ReachIn (m : maze_t) : Nat → Int × Int → Prop
  | entry (y : Int) : 0 ≤ y → y < m.cols → (m.cells 0 y).type = PATH →
      ReachIn m 0 (0, y)
  | step (n : Nat) (p r : Int × Int) : ReachIn m n p → adj p r → InB m r.1 r.2 →
      (m.cells r.1 r.2).type = PATH → ReachIn m (n + 1) r

/-- A nonempty sequence of pairwise-adjacent in-bounds open cells. -/
def IsOpenPath (m : maze_t) : List (Int × Int) → Prop
  | [] => False
  | [p] => InB m p.1 p.2 ∧ (m.cells p.1 p.2).type = PATH
  | p :: r :: rest =>
      InB m p.1 p.2 ∧ (m.cells p.1 p.2).type = PATH ∧ adj p r ∧
      IsOpenPath m (r :: rest)

/-! ### Spec-modelled full-bounds flood variants (for the bounds-safety claim)

The spec flags the single-axis guards as benign by construction; the checked
variants below follow the spec's words and guard both axes, so that proving
the real flood equal to the checked flood states that every cell access the
flood performs is within the grid bounds. -/

/-- Modelled from the spec: `flood_up` with the full two-axis bounds check. -/
def flood_up_checked (m : maze_t) (q : List rec_t) (i : Nat) (x y cost : Int) :
    maze_t × List rec_t :=
  if InB m x y ∧ (m.cells x y).type = PATH then visit_cell m q i x y cost else (m, q)

/-- Modelled from the spec: `flood_down` with the full two-axis bounds check. -/
def flood_down_checked (m : maze_t) (q : List rec_t) (i : Nat) (x y cost : Int) :
    maze_t × List rec_t :=
  if InB m x y ∧ (m.cells x y).type = PATH then visit_cell m q i x y cost else (m, q)

/-- Modelled from the spec: `flood_left` with the full two-axis bounds check. -/
def flood_left_checked (m : maze_t) (q : List rec_t) (i : Nat) (x y cost : Int) :
    maze_t × List rec_t :=
  if InB m x y ∧ (m.cells x y).type = PATH then visit_cell m q i x y cost else (m, q)

/-- Modelled from the spec: `flood_right` with the full two-axis bounds check. -/
def flood_right_checked (m : maze_t) (q : List rec_t) (i : Nat) (x y cost : Int) :
    maze_t × List rec_t :=
  if InB m x y ∧ (m.cells x y).type = PATH then visit_cell m q i x y cost else (m, q)

/-- The expansion step with every direction fully bounds-checked. -/
def expandChecked (m : maze_t) (q : List rec_t) (i : Nat) : maze_t × List rec_t :=
  let x := (recAt q i).pos.1
  let y := (recAt q i).pos.2
  let cost := (m.cells x y).cost
  let r1 := flood_right_checked m q i x (y + 1) (cost + 1)
  let r2 := flood_down_checked r1.1 r1.2 i (x + 1) y (cost + 1)
  let r3 := flood_left_checked r2.1 r2.2 i x (y - 1) (cost + 1)
  flood_up_checked r3.1 r3.2 i (x - 1) y (cost + 1)

/-! ### The flood invariant -/

/-- Well-formedness of one queue record's parent link: roots are row-0 cells
of cost 0; a child is adjacent to its parent and one hop deeper. -/
def ParentOK (m : maze_t) (q : List rec_t) (j : Nat) : Prop :=
  match (recAt q j).parent with
  | none => (recAt q j).pos.1 = 0 ∧ costAt m (recAt q j).pos = 0
  | some pa => pa < j ∧ adj (recAt q pa).pos (recAt q j).pos ∧
      costAt m (recAt q j).pos = costAt m (recAt q pa).pos + 1

/-- The breadth-first flood invariant, relating the pristine valid maze `g`
to the in-flood maze `m`, the queue `q` and the index `i` of the record about
to be expanded. -/
structure FloodInv (g m : maze_t) (q : List rec_t) (i : Nat) : Prop where
  valid : ValidMaze g
  rows_eq : m.rows = g.rows
  cols_eq : m.cols = g.cols
  mcost_eq : m.cost = g.cost
  msoln_eq : m.soln = g.soln
  type_eq : ∀ x y, (m.cells x y).type = (g.cells x y).type
  cellsoln_eq : ∀ x y, (m.cells x y).soln = (g.cells x y).soln
  oob_eq : ∀ x y, ¬ InB g x y → m.cells x y = g.cells x y
  cost_shape : ∀ x y, InB g x y →
      (m.cells x y).cost = -1 ∨ (0 ≤ (m.cells x y).cost ∧ (g.cells x y).type = PATH)
  reach_iff : ∀ x y, InB g x y → ((m.cells x y).reach = true ↔ 0 ≤ (m.cells x y).cost)
  q_inb : ∀ r ∈ q, InB g r.pos.1 r.pos.2
  q_set : ∀ r ∈ q, 0 ≤ costAt m r.pos
  q_mem : ∀ x y, InB g x y → 0 ≤ (m.cells x y).cost → (x, y) ∈ q.map rec_t.pos
  q_nodup : (q.map rec_t.pos).Nodup
  q_mono : ∀ j k, j ≤ k → k < q.length →
      costAt m (recAt q j).pos ≤ costAt m (recAt q k).pos
  q_window : ∀ j, j < q.length → i < q.length →
      costAt m (recAt q j).pos ≤ costAt m (recAt q i).pos + 1
  q_parent : ∀ j, j < q.length → ParentOK m q j
  i_le : i ≤ q.length
  expanded : ∀ j, j < i → ∀ p : Int × Int, adj (recAt q j).pos p → InB g p.1 p.2 →
      (g.cells p.1 p.2).type = PATH →
      0 ≤ costAt m p ∧ costAt m p ≤ costAt m (recAt q j).pos + 1
  entr0 : ∀ y : Int, InB g 0 y → (g.cells 0 y).type = PATH → (m.cells 0 y).cost = 0

/-- What one guarded visit attempt guarantees: the invariant still holds at
the same index, the queue has only grown at the tail, and already-set costs
are untouched. -/
structure StepOut (g m : maze_t) (q : List rec_t) (i : Nat)
    (r : maze_t × List rec_t) : Prop where
  inv : FloodInv g r.1 r.2 i
  ext : ∃ t, r.2 = q ++ t
  keep : ∀ p : Int × Int, 0 ≤ costAt m p → costAt r.1 p = costAt m p

/-- A candidate exit at column `y` of row `x`: in-bounds, open, and marked
reachable (what the `find_exit` scan tests). -/
def ExitCand (m : maze_t) (x y : Int) : Prop :=
  0 ≤ y ∧ y < m.cols ∧ (m.cells x y).type = PATH ∧ (m.cells x y).reach = true

instance (m : maze_t) (x y : Int) : Decidable (ExitCand m x y) := by
  unfold ExitCand; infer_instance

/-! ### Concrete mazes used as witnesses -/

/-- Build a freshly loaded maze from a character layout. -/
def mkMaze (rows cols : Int) (layout : List (List Char)) : maze_t where
  rows := rows
  cols := cols
  cost := 0
  soln := false
  cells := fun x y =>
    { cost := -1, reach := false, soln := false,
      type := if 0 ≤ x ∧ 0 ≤ y then ((layout.getD x.toNat []).getD y.toNat WALL) else WALL }

/-- A 2×2 all-open maze. -/
def mazeOpen2 : maze_t := mkMaze 2 2 [['.', '.'], ['.', '.']]

/-- A 2×2 maze whose single entrance has a wall to its right. -/
def mazeWallNbr : maze_t := mkMaze 2 2 [['.', '#'], ['#', '#']]

/-- A 2×2 maze with no entrance at all (row 0 fully walled). -/
def mazeNoEntry : maze_t := mkMaze 2 2 [['#', '#'], ['.', '.']]

/-- A 3×3 maze with two entrances and two tied lowest-cost exits. -/
def mazeTie : maze_t := mkMaze 3 3 [['.', '#', '.'], ['.', '.', '.'], ['.', '#', '.']]

/-! ### Basic lemmas about cell updates and queue indexing -/

theorem updCell_cells (m : maze_t) (x y : Int) (f : cell_t → cell_t) (a b : Int) :
    (updCell m x y f).cells a b =
      if a = x ∧ b = y then f (m.cells a b) else m.cells a b := rfl

theorem updCell_cells_same (m : maze_t) (x y : Int) (f : cell_t → cell_t) :
    (updCell m x y f).cells x y = f (m.cells x y) := by
  simp [updCell]

theorem updCell_cells_other (m : maze_t) (x y : Int) (f : cell_t → cell_t)
    (a b : Int) (h : ¬ (a = x ∧ b = y)) :
    (updCell m x y f).cells a b = m.cells a b := by
  simp only [updCell_cells, if_neg h]

theorem updCell_rows (m : maze_t) (x y : Int) (f : cell_t → cell_t) :
    (updCell m x y f).rows = m.rows := rfl

theorem updCell_cols (m : maze_t) (x y : Int) (f : cell_t → cell_t) :
    (updCell m x y f).cols = m.cols := rfl

theorem updCell_mcost (m : maze_t) (x y : Int) (f : cell_t → cell_t) :
    (updCell m x y f).cost = m.cost := rfl

theorem updCell_msoln (m : maze_t) (x y : Int) (f : cell_t → cell_t) :
    (updCell m x y f).soln = m.soln := rfl

theorem cell_eta_reach (c : cell_t) (h : c.reach = true) :
    { c with reach := true } = c := by
  cases c
  simp_all

theorem maze_eta_cells (m m' : maze_t) (hr : m'.rows = m.rows) (hc : m'.cols = m.cols)
    (hco : m'.cost = m.cost) (hs : m'.soln = m.soln)
    (hcells : ∀ a b, m'.cells a b = m.cells a b) : m' = m := by
  cases m
  cases m'
  simp_all
  funext a b
  exact hcells a b

theorem recAt_mem (q : List rec_t) (j : Nat) (h : j < q.length) : recAt q j ∈ q := by
  unfold recAt
  rw [List.getD_eq_getElem _ _ h]
  exact List.getElem_mem h

theorem recAt_append_left (q t : List rec_t) (j : Nat) (h : j < q.length) :
    recAt (q ++ t) j = recAt q j := by
  unfold recAt
  rw [List.getD_eq_getElem _ _ h, List.getD_eq_getElem _ _ (by simp; omega),
    List.getElem_append_left h]

theorem recAt_append_self (q : List rec_t) (r : rec_t) :
    recAt (q ++ [r]) q.length = r := by
  unfold recAt
  rw [List.getD_eq_getElem _ _ (by simp)]
  simp

theorem pos_mem_elim (q : List rec_t) (p : Int × Int) (h : p ∈ q.map rec_t.pos) :
    ∃ j, j < q.length ∧ (recAt q j).pos = p := by
  rcases List.mem_map.mp h with ⟨r, hr, hrp⟩
  rcases List.mem_iff_getElem.mp hr with ⟨j, hj, hjr⟩
  exact ⟨j, hj, by unfold recAt; rw [List.getD_eq_getElem _ _ hj, hjr, hrp]⟩

theorem pos_mem_intro (q : List rec_t) (j : Nat) (h : j < q.length) :
    (recAt q j).pos ∈ q.map rec_t.pos :=
  List.mem_map.mpr ⟨recAt q j, recAt_mem q j h, rfl⟩

/-! ### The two shapes of a visit -/

theorem visit_cell_eq (m : maze_t) (q : List rec_t) (i : Nat) (x y c : Int) :
    visit_cell m q i x y c =
      if (m.cells x y).cost < 0 ∨ c < (m.cells x y).cost then
        (updCell m x y (fun cc => { cc with reach := true, cost := c }),
          q ++ [⟨(x, y), some i⟩])
      else
        (updCell m x y (fun cc => { cc with reach := true }), q) := by
  unfold visit_cell
  dsimp only
  have hc : ((updCell m x y fun c => { c with reach := true }).cells x y).cost
      = (m.cells x y).cost := by
    rw [updCell_cells_same]
  rw [hc]
  split
  · refine Prod.ext ?_ rfl
    apply maze_eta_cells <;> try rfl
    intro a b
    by_cases hab : a = x ∧ b = y
    · obtain ⟨rfl, rfl⟩ := hab
      rw [updCell_cells_same, updCell_cells_same, updCell_cells_same]
    · rw [updCell_cells_other _ _ _ _ _ _ hab, updCell_cells_other _ _ _ _ _ _ hab,
        updCell_cells_other _ _ _ _ _ _ hab]
  · rfl


theorem costAt_mk (m : maze_t) (x y : Int) : costAt m (x, y) = (m.cells x y).cost := rfl

theorem updCell_cells_ne (m : maze_t) (x y : Int) (f : cell_t → cell_t)
    (a b : Int) (h : (a, b) ≠ (x, y)) :
    (updCell m x y f).cells a b = m.cells a b := by
  refine updCell_cells_other m x y f a b ?_
  rintro ⟨rfl, rfl⟩
  exact h rfl

theorem updCell_pos_ne (m : maze_t) (x y : Int) (f : cell_t → cell_t)
    (p : Int × Int) (h : p ≠ (x, y)) :
    (updCell m x y f).cells p.1 p.2 = m.cells p.1 p.2 :=
  updCell_cells_ne m x y f p.1 p.2 h

theorem costAt_updCell_ne (m : maze_t) (x y : Int) (f : cell_t → cell_t)
    (p : Int × Int) (h : p ≠ (x, y)) :
    costAt (updCell m x y f) p = costAt m p :=
  congrArg cell_t.cost (updCell_pos_ne m x y f p h)

theorem visit_pres (g m : maze_t) (q : List rec_t) (i : Nat) (x y : Int)
    (hInv : FloodInv g m q i) (hi : i < q.length)
    (hadj : adj (recAt q i).pos (x, y)) (hib : InB g x y)
    (hop : (g.cells x y).type = PATH) :
    StepOut g m q i (visit_cell m q i x y (costAt m (recAt q i).pos + 1)) ∧
    0 ≤ costAt (visit_cell m q i x y (costAt m (recAt q i).pos + 1)).1 (x, y) ∧
    costAt (visit_cell m q i x y (costAt m (recAt q i).pos + 1)).1 (x, y) ≤
      costAt m (recAt q i).pos + 1 := by
  have hd0 : 0 ≤ costAt m (recAt q i).pos := hInv.q_set _ (recAt_mem q i hi)
  have hbound : 0 ≤ (m.cells x y).cost →
      (m.cells x y).cost ≤ costAt m (recAt q i).pos + 1 := by
    intro hge
    rcases pos_mem_elim q (x, y) (hInv.q_mem x y hib hge) with ⟨j, hj, hjp⟩
    have hw := hInv.q_window j hj hi
    rw [hjp, costAt_mk] at hw
    exact hw
  set d := costAt m (recAt q i).pos with hdd
  rw [visit_cell_eq]
  by_cases hcond : (m.cells x y).cost < 0 ∨ d + 1 < (m.cells x y).cost
  · -- write case: the target cell must have been unvisited
    have hunset : (m.cells x y).cost = -1 := by
      rcases hInv.cost_shape x y hib with h1 | ⟨h2, _⟩
      · exact h1
      · have := hbound h2
        omega
    rw [if_pos hcond]
    dsimp only
    set nr : rec_t := ⟨(x, y), some i⟩ with hnr
    set m' := updCell m x y (fun cc => { cc with reach := true, cost := d + 1 }) with hm'
    have hLen : (q ++ [nr]).length = q.length + 1 := by simp
    have hcost_xy : costAt m' (x, y) = d + 1 := by
      rw [costAt_mk, hm', updCell_cells_same]
    have hnotmem : (x, y) ∉ q.map rec_t.pos := by
      intro hmem
      rcases List.mem_map.mp hmem with ⟨r, hr, hrp⟩
      have h := hInv.q_set r hr
      rw [hrp, costAt_mk, hunset] at h
      omega
    have hposne : ∀ r ∈ q, r.pos ≠ (x, y) := by
      intro r hr h
      exact hnotmem (List.mem_map.mpr ⟨r, hr, h⟩)
    have hkeepc : ∀ p : Int × Int, 0 ≤ costAt m p → costAt m' p = costAt m p := by
      intro p hp
      have hpne : p ≠ (x, y) := by
        intro h
        rw [h, costAt_mk, hunset] at hp
        omega
      exact costAt_updCell_ne m x y _ p hpne
    have hrecL : ∀ j, j < q.length → recAt (q ++ [nr]) j = recAt q j :=
      fun j hj => recAt_append_left q [nr] j hj
    have hrecS : recAt (q ++ [nr]) q.length = nr := recAt_append_self q nr
    have hcq : ∀ j, j < q.length →
        costAt m' (recAt (q ++ [nr]) j).pos = costAt m (recAt q j).pos := by
      intro j hj
      rw [hrecL j hj]
      exact hkeepc _ (hInv.q_set _ (recAt_mem q j hj))
    refine ⟨⟨?_, ⟨[nr], rfl⟩, hkeepc⟩, ?_, ?_⟩
    · refine {
        valid := hInv.valid
        rows_eq := by rw [hm', updCell_rows, hInv.rows_eq]
        cols_eq := by rw [hm', updCell_cols, hInv.cols_eq]
        mcost_eq := by rw [hm', updCell_mcost, hInv.mcost_eq]
        msoln_eq := by rw [hm', updCell_msoln, hInv.msoln_eq]
        type_eq := ?_
        cellsoln_eq := ?_
        oob_eq := ?_
        cost_shape := ?_
        reach_iff := ?_
        q_inb := ?_
        q_set := ?_
        q_mem := ?_
        q_nodup := ?_
        q_mono := ?_
        q_window := ?_
        q_parent := ?_
        i_le := by rw [hLen]; omega
        expanded := ?_
        entr0 := ?_ }
      · intro a b
        rw [hm', updCell_cells]
        split
        · exact hInv.type_eq a b
        · exact hInv.type_eq a b
      · intro a b
        rw [hm', updCell_cells]
        split
        · exact hInv.cellsoln_eq a b
        · exact hInv.cellsoln_eq a b
      · intro a b hnib
        have hne2 : (a, b) ≠ (x, y) := by
          rintro h
          rw [Prod.mk.injEq] at h
          obtain ⟨rfl, rfl⟩ := h
          exact hnib hib
        rw [hm', updCell_cells_ne _ _ _ _ _ _ hne2]
        exact hInv.oob_eq a b hnib
      · intro a b hinb
        by_cases hab : (a, b) = (x, y)
        · rw [Prod.mk.injEq] at hab
          obtain ⟨rfl, rfl⟩ := hab
          right
          constructor
          · rw [hm', updCell_cells_same]
            show (0 : Int) ≤ d + 1
            omega
          · exact hop
        · rw [hm', updCell_cells_ne _ _ _ _ _ _ hab]
          exact hInv.cost_shape a b hinb
      · intro a b hinb
        by_cases hab : (a, b) = (x, y)
        · rw [Prod.mk.injEq] at hab
          obtain ⟨rfl, rfl⟩ := hab
          rw [hm', updCell_cells_same]
          constructor
          · intro _
            show (0 : Int) ≤ d + 1
            omega
          · intro _
            rfl
        · rw [hm', updCell_cells_ne _ _ _ _ _ _ hab]
          exact hInv.reach_iff a b hinb
      · intro r hr
        rcases List.mem_append.mp hr with h | h
        · exact hInv.q_inb r h
        · rw [List.mem_singleton] at h
          rw [h, hnr]
          exact hib
      · intro r hr
        rcases List.mem_append.mp hr with h | h
        · rw [hkeepc r.pos (hInv.q_set r h)]
          exact hInv.q_set r h
        · rw [List.mem_singleton] at h
          rw [h, hnr]
          rw [show (⟨(x, y), some i⟩ : rec_t).pos = (x, y) from rfl, hcost_xy]
          omega
      · intro a b hinb hge
        rw [List.map_append]
        by_cases hab : (a, b) = (x, y)
        · refine List.mem_append.mpr (Or.inr ?_)
          rw [hab]
          simp [hnr]
        · refine List.mem_append.mpr (Or.inl ?_)
          have hcu : (m'.cells a b).cost = (m.cells a b).cost := by
            rw [hm', updCell_cells_ne _ _ _ _ _ _ hab]
          rw [hcu] at hge
          exact hInv.q_mem a b hinb hge
      · rw [List.map_append]
        refine List.Nodup.append hInv.q_nodup (List.nodup_singleton _) ?_
        intro p hp hp2
        rw [show ([nr].map rec_t.pos) = [(x, y)] from rfl, List.mem_singleton] at hp2
        rw [hp2] at hp
        exact hnotmem hp
      · intro j k hjk hk
        rw [hLen] at hk
        by_cases hkL : k < q.length
        · rw [hcq j (by omega), hcq k hkL]
          exact hInv.q_mono j k hjk hkL
        · have hkeq : k = q.length := by omega
          subst hkeq
          rw [hrecS, hnr]
          rw [show (⟨(x, y), some i⟩ : rec_t).pos = (x, y) from rfl, hcost_xy]
          by_cases hjL : j < q.length
          · rw [hcq j hjL]
            have := hInv.q_window j hjL hi
            omega
          · have hjeq : j = q.length := by omega
            subst hjeq
            rw [hrecS, hnr]
            rw [show (⟨(x, y), some i⟩ : rec_t).pos = (x, y) from rfl, hcost_xy]
      · intro j hj hi2
        rw [hLen] at hj
        have hiL : i < q.length := hi
        rw [hcq i hiL, ← hdd]
        by_cases hjL : j < q.length
        · rw [hcq j hjL]
          have := hInv.q_window j hjL hi
          omega
        · have hjeq : j = q.length := by omega
          subst hjeq
          rw [hrecS, hnr]
          rw [show (⟨(x, y), some i⟩ : rec_t).pos = (x, y) from rfl, hcost_xy]
      · intro j hj
        rw [hLen] at hj
        by_cases hjL : j < q.length
        · have hP := hInv.q_parent j hjL
          unfold ParentOK at hP ⊢
          rw [hrecL j hjL]
          cases hpp : (recAt q j).parent with
          | none =>
            rw [hpp] at hP
            exact ⟨hP.1, by rw [hkeepc _ (hInv.q_set _ (recAt_mem q j hjL))]; exact hP.2⟩
          | some pa =>
            rw [hpp] at hP
            obtain ⟨hpa, hadjp, hcostp⟩ := hP
            refine ⟨hpa, ?_, ?_⟩
            · rw [hrecL pa (by omega)]
              exact hadjp
            · rw [hrecL pa (by omega),
                hkeepc _ (hInv.q_set _ (recAt_mem q j hjL)),
                hkeepc _ (hInv.q_set _ (recAt_mem q pa (by omega)))]
              exact hcostp
        · have hjeq : j = q.length := by omega
          subst hjeq
          unfold ParentOK
          rw [hrecS, hnr]
          refine ⟨hi, ?_, ?_⟩
          · rw [hrecL i hi]
            exact hadj
          · rw [show (⟨(x, y), some i⟩ : rec_t).pos = (x, y) from rfl, hcost_xy,
              hrecL i hi, hkeepc _ (hInv.q_set _ (recAt_mem q i hi)), ← hdd]
      · intro j hji p hadjp hpinb hpop
        dsimp only at hadjp ⊢
        have hjL : j < q.length := hji.trans hi
        rw [hrecL j hjL] at hadjp ⊢
        have hold := hInv.expanded j hji p hadjp hpinb hpop
        rw [hkeepc p hold.1, hkeepc _ (hInv.q_set _ (recAt_mem q j hjL))]
        exact hold
      · intro yy hinb hopy
        by_cases hab : ((0 : Int), yy) = (x, y)
        · exfalso
          have h0 := hInv.entr0 yy hinb hopy
          rw [Prod.mk.injEq] at hab
          obtain ⟨hx0, hy0⟩ := hab
          subst hx0
          subst hy0
          omega
        · rw [hm', updCell_cells_ne _ _ _ _ _ _ hab]
          exact hInv.entr0 yy hinb hopy
    · rw [hcost_xy]
      omega
    · rw [hcost_xy]
  · -- no-write case: the reach flag is already set, nothing changes
    push_neg at hcond
    obtain ⟨hge, hle⟩ := hcond
    have hre : (m.cells x y).reach = true := (hInv.reach_iff x y hib).mpr hge
    have hmeq : updCell m x y (fun cc => { cc with reach := true }) = m := by
      apply maze_eta_cells <;> try rfl
      intro a b
      rw [updCell_cells]
      split
      · next hab =>
        obtain ⟨rfl, rfl⟩ := hab
        exact cell_eta_reach (m.cells a b) hre
      · rfl
    rw [if_neg (by push_neg; exact ⟨by omega, by omega⟩), hmeq]
    refine ⟨⟨hInv, ⟨[], by simp⟩, fun p _ => rfl⟩, ?_, ?_⟩
    · show 0 ≤ costAt m (x, y)
      rw [costAt_mk]
      omega
    · show costAt m (x, y) ≤ d + 1
      rw [costAt_mk]
      exact hbound hge

/-! ### The single-axis guards are equivalent to full bounds checks -/

theorem flood_right_eq_checked (m : maze_t) (q : List rec_t) (i : Nat) (x y c : Int)
    (h1 : 0 ≤ x) (h2 : x < m.rows) (h3 : 0 ≤ y) :
    flood_right m q i x y c = flood_right_checked m q i x y c := by
  unfold flood_right flood_right_checked
  refine if_congr ?_ rfl rfl
  unfold InB
  constructor
  · rintro ⟨h4, h5⟩
    exact ⟨⟨h1, h2, h3, h4⟩, h5⟩
  · rintro ⟨⟨_, _, _, h4⟩, h5⟩
    exact ⟨h4, h5⟩

theorem flood_down_eq_checked (m : maze_t) (q : List rec_t) (i : Nat) (x y c : Int)
    (h1 : 0 ≤ y) (h2 : y < m.cols) (h3 : 0 < x) :
    flood_down m q i x y c = flood_down_checked m q i x y c := by
  unfold flood_down flood_down_checked
  refine if_congr ?_ rfl rfl
  unfold InB
  constructor
  · rintro ⟨h4, h5⟩
    exact ⟨⟨by omega, h4, h1, h2⟩, h5⟩
  · rintro ⟨⟨_, h4, _, _⟩, h5⟩
    exact ⟨h4, h5⟩

theorem flood_left_eq_checked (m : maze_t) (q : List rec_t) (i : Nat) (x y c : Int)
    (h1 : 0 ≤ x) (h2 : x < m.rows) (h3 : y < m.cols) :
    flood_left m q i x y c = flood_left_checked m q i x y c := by
  unfold flood_left flood_left_checked
  refine if_congr ?_ rfl rfl
  unfold InB
  constructor
  · rintro ⟨h4, h5⟩
    exact ⟨⟨h1, h2, h4, h3⟩, h5⟩
  · rintro ⟨⟨_, _, h4, _⟩, h5⟩
    exact ⟨h4, h5⟩

theorem flood_up_eq_checked (m : maze_t) (q : List rec_t) (i : Nat) (x y c : Int)
    (h1 : 0 ≤ y) (h2 : y < m.cols) (h3 : x < m.rows) :
    flood_up m q i x y c = flood_up_checked m q i x y c := by
  unfold flood_up flood_up_checked
  refine if_congr ?_ rfl rfl
  unfold InB
  constructor
  · rintro ⟨h4, h5⟩
    exact ⟨⟨h4, h3, h1, h2⟩, h5⟩
  · rintro ⟨⟨h4, _, _, _⟩, h5⟩
    exact ⟨h4, h5⟩

theorem flood_down_checked_eq (m : maze_t) (q : List rec_t) (i : Nat) (x y c : Int) :
    flood_down_checked m q i x y c = flood_right_checked m q i x y c := rfl

theorem flood_left_checked_eq (m : maze_t) (q : List rec_t) (i : Nat) (x y c : Int) :
    flood_left_checked m q i x y c = flood_right_checked m q i x y c := rfl

theorem flood_up_checked_eq (m : maze_t) (q : List rec_t) (i : Nat) (x y c : Int) :
    flood_up_checked m q i x y c = flood_right_checked m q i x y c := rfl

theorem checked_pres (g m : maze_t) (q : List rec_t) (i : Nat) (x y c : Int)
    (hInv : FloodInv g m q i) (hi : i < q.length)
    (hadj : adj (recAt q i).pos (x, y))
    (hc : c = costAt m (recAt q i).pos + 1) :
    StepOut g m q i (flood_right_checked m q i x y c) ∧
    (InB g x y → (g.cells x y).type = PATH →
      0 ≤ costAt (flood_right_checked m q i x y c).1 (x, y) ∧
      costAt (flood_right_checked m q i x y c).1 (x, y) ≤
        costAt m (recAt q i).pos + 1) := by
  subst hc
  unfold flood_right_checked
  by_cases h : InB m x y ∧ (m.cells x y).type = PATH
  · rw [if_pos h]
    have hibg : InB g x y := by
      have h1 := h.1
      unfold InB at h1 ⊢
      rw [hInv.rows_eq, hInv.cols_eq] at h1
      exact h1
    have hopg : (g.cells x y).type = PATH := by
      rw [← hInv.type_eq x y]
      exact h.2
    obtain ⟨hso, hlo, hhi⟩ := visit_pres g m q i x y hInv hi hadj hibg hopg
    exact ⟨hso, fun _ _ => ⟨hlo, hhi⟩⟩
  · rw [if_neg h]
    refine ⟨⟨hInv, ⟨[], by simp⟩, fun p _ => rfl⟩, ?_⟩
    intro hibg hopg
    exfalso
    apply h
    constructor
    · unfold InB at hibg ⊢
      rw [hInv.rows_eq, hInv.cols_eq]
      exact hibg
    · rw [hInv.type_eq x y]
      exact hopg

theorem flood_right_pres (g m : maze_t) (q : List rec_t) (i : Nat) (x y c : Int)
    (hInv : FloodInv g m q i) (hi : i < q.length)
    (hx : x = (recAt q i).pos.1) (hy : y = (recAt q i).pos.2 + 1)
    (hc : c = costAt m (recAt q i).pos + 1) :
    StepOut g m q i (flood_right m q i x y c) ∧
    (InB g x y → (g.cells x y).type = PATH →
      0 ≤ costAt (flood_right m q i x y c).1 (x, y) ∧
      costAt (flood_right m q i x y c).1 (x, y) ≤ costAt m (recAt q i).pos + 1) := by
  subst hx
  subst hy
  have hrin := hInv.q_inb _ (recAt_mem q i hi)
  unfold InB at hrin
  rw [flood_right_eq_checked m q i _ _ c hrin.1 (by rw [hInv.rows_eq]; exact hrin.2.1)
    (by omega)]
  exact checked_pres g m q i _ _ c hInv hi (Or.inl rfl) hc

theorem flood_down_pres (g m : maze_t) (q : List rec_t) (i : Nat) (x y c : Int)
    (hInv : FloodInv g m q i) (hi : i < q.length)
    (hx : x = (recAt q i).pos.1 + 1) (hy : y = (recAt q i).pos.2)
    (hc : c = costAt m (recAt q i).pos + 1) :
    StepOut g m q i (flood_down m q i x y c) ∧
    (InB g x y → (g.cells x y).type = PATH →
      0 ≤ costAt (flood_down m q i x y c).1 (x, y) ∧
      costAt (flood_down m q i x y c).1 (x, y) ≤ costAt m (recAt q i).pos + 1) := by
  subst hx
  subst hy
  have hrin := hInv.q_inb _ (recAt_mem q i hi)
  unfold InB at hrin
  rw [flood_down_eq_checked m q i _ _ c hrin.2.2.1
    (by rw [hInv.cols_eq]; exact hrin.2.2.2) (by omega), flood_down_checked_eq]
  exact checked_pres g m q i _ _ c hInv hi (Or.inr (Or.inl rfl)) hc

theorem flood_left_pres (g m : maze_t) (q : List rec_t) (i : Nat) (x y c : Int)
    (hInv : FloodInv g m q i) (hi : i < q.length)
    (hx : x = (recAt q i).pos.1) (hy : y = (recAt q i).pos.2 - 1)
    (hc : c = costAt m (recAt q i).pos + 1) :
    StepOut g m q i (flood_left m q i x y c) ∧
    (InB g x y → (g.cells x y).type = PATH →
      0 ≤ costAt (flood_left m q i x y c).1 (x, y) ∧
      costAt (flood_left m q i x y c).1 (x, y) ≤ costAt m (recAt q i).pos + 1) := by
  subst hx
  subst hy
  have hrin := hInv.q_inb _ (recAt_mem q i hi)
  unfold InB at hrin
  rw [flood_left_eq_checked m q i _ _ c hrin.1 (by rw [hInv.rows_eq]; exact hrin.2.1)
    (by rw [hInv.cols_eq]; omega), flood_left_checked_eq]
  exact checked_pres g m q i _ _ c hInv hi (Or.inr (Or.inr (Or.inl rfl))) hc

theorem flood_up_pres (g m : maze_t) (q : List rec_t) (i : Nat) (x y c : Int)
    (hInv : FloodInv g m q i) (hi : i < q.length)
    (hx : x = (recAt q i).pos.1 - 1) (hy : y = (recAt q i).pos.2)
    (hc : c = costAt m (recAt q i).pos + 1) :
    StepOut g m q i (flood_up m q i x y c) ∧
    (InB g x y → (g.cells x y).type = PATH →
      0 ≤ costAt (flood_up m q i x y c).1 (x, y) ∧
      costAt (flood_up m q i x y c).1 (x, y) ≤ costAt m (recAt q i).pos + 1) := by
  subst hx
  subst hy
  have hrin := hInv.q_inb _ (recAt_mem q i hi)
  unfold InB at hrin
  rw [flood_up_eq_checked m q i _ _ c hrin.2.2.1
    (by rw [hInv.cols_eq]; exact hrin.2.2.2) (by rw [hInv.rows_eq]; omega),
    flood_up_checked_eq]
  exact checked_pres g m q i _ _ c hInv hi (Or.inr (Or.inr (Or.inr rfl))) hc

theorem inv_succ (g m : maze_t) (q : List rec_t) (i : Nat)
    (hInv : FloodInv g m q i) (hilen : i < q.length)
    (hexp : ∀ p : Int × Int, adj (recAt q i).pos p → InB g p.1 p.2 →
        (g.cells p.1 p.2).type = PATH →
        0 ≤ costAt m p ∧ costAt m p ≤ costAt m (recAt q i).pos + 1) :
    FloodInv g m q (i + 1) where
  valid := hInv.valid
  rows_eq := hInv.rows_eq
  cols_eq := hInv.cols_eq
  mcost_eq := hInv.mcost_eq
  msoln_eq := hInv.msoln_eq
  type_eq := hInv.type_eq
  cellsoln_eq := hInv.cellsoln_eq
  oob_eq := hInv.oob_eq
  cost_shape := hInv.cost_shape
  reach_iff := hInv.reach_iff
  q_inb := hInv.q_inb
  q_set := hInv.q_set
  q_mem := hInv.q_mem
  q_nodup := hInv.q_nodup
  q_mono := hInv.q_mono
  q_window := by
    intro j hj hi1
    have h1 := hInv.q_window j hj hilen
    have h2 := hInv.q_mono i (i + 1) (by omega) hi1
    omega
  q_parent := hInv.q_parent
  i_le := hilen
  expanded := by
    intro j hji p hadjp hpinb hpop
    by_cases hjlt : j < i
    · exact hInv.expanded j hjlt p hadjp hpinb hpop
    · have hjeq : j = i := by omega
      subst hjeq
      exact hexp p hadjp hpinb hpop
  entr0 := hInv.entr0

theorem expand_pres (g m : maze_t) (q : List rec_t) (i : Nat)
    (hInv : FloodInv g m q i) (hi : i < q.length) :
    FloodInv g (expand m q i).1 (expand m q i).2 (i + 1) ∧
    (∃ t, (expand m q i).2 = q ++ t) ∧
    (∀ p : Int × Int, 0 ≤ costAt m p → costAt (expand m q i).1 p = costAt m p) := by
  obtain ⟨so1, cov1⟩ := flood_right_pres g m q i (recAt q i).pos.1
    ((recAt q i).pos.2 + 1) ((m.cells (recAt q i).pos.1 (recAt q i).pos.2).cost + 1)
    hInv hi rfl rfl rfl
  set R1 := flood_right m q i (recAt q i).pos.1 ((recAt q i).pos.2 + 1)
    ((m.cells (recAt q i).pos.1 (recAt q i).pos.2).cost + 1) with hR1
  obtain ⟨t1, ht1⟩ := so1.ext
  have hi1 : i < R1.2.length := by rw [ht1, List.length_append]; omega
  have hrec1 : recAt R1.2 i = recAt q i := by rw [ht1]; exact recAt_append_left q t1 i hi
  have hcost1 : costAt R1.1 (recAt q i).pos = costAt m (recAt q i).pos :=
    so1.keep _ (hInv.q_set _ (recAt_mem q i hi))
  obtain ⟨so2, cov2⟩ := flood_down_pres g R1.1 R1.2 i ((recAt q i).pos.1 + 1)
    (recAt q i).pos.2 ((m.cells (recAt q i).pos.1 (recAt q i).pos.2).cost + 1)
    so1.inv hi1 (by rw [hrec1]) (by rw [hrec1]) (by rw [hrec1, hcost1]; rfl)
  set R2 := flood_down R1.1 R1.2 i ((recAt q i).pos.1 + 1) (recAt q i).pos.2
    ((m.cells (recAt q i).pos.1 (recAt q i).pos.2).cost + 1) with hR2
  obtain ⟨t2, ht2⟩ := so2.ext
  have hi2 : i < R2.2.length := by rw [ht2, List.length_append]; omega
  have hrec2 : recAt R2.2 i = recAt q i := by
    rw [ht2, recAt_append_left R1.2 t2 i hi1, hrec1]
  have hcost2 : costAt R2.1 (recAt q i).pos = costAt m (recAt q i).pos := by
    rw [← hcost1]
    exact so2.keep _ (by rw [← hrec1]; exact so1.inv.q_set _ (recAt_mem R1.2 i hi1))
  obtain ⟨so3, cov3⟩ := flood_left_pres g R2.1 R2.2 i (recAt q i).pos.1
    ((recAt q i).pos.2 - 1) ((m.cells (recAt q i).pos.1 (recAt q i).pos.2).cost + 1)
    so2.inv hi2 (by rw [hrec2]) (by rw [hrec2]) (by rw [hrec2, hcost2]; rfl)
  set R3 := flood_left R2.1 R2.2 i (recAt q i).pos.1 ((recAt q i).pos.2 - 1)
    ((m.cells (recAt q i).pos.1 (recAt q i).pos.2).cost + 1) with hR3
  obtain ⟨t3, ht3⟩ := so3.ext
  have hi3 : i < R3.2.length := by rw [ht3, List.length_append]; omega
  have hrec3 : recAt R3.2 i = recAt q i := by
    rw [ht3, recAt_append_left R2.2 t3 i hi2, hrec2]
  have hcost3 : costAt R3.1 (recAt q i).pos = costAt m (recAt q i).pos := by
    rw [← hcost2]
    exact so3.keep _ (by rw [← hrec2]; exact so2.inv.q_set _ (recAt_mem R2.2 i hi2))
  obtain ⟨so4, cov4⟩ := flood_up_pres g R3.1 R3.2 i ((recAt q i).pos.1 - 1)
    (recAt q i).pos.2 ((m.cells (recAt q i).pos.1 (recAt q i).pos.2).cost + 1)
    so3.inv hi3 (by rw [hrec3]) (by rw [hrec3]) (by rw [hrec3, hcost3]; rfl)
  set R4 := flood_up R3.1 R3.2 i ((recAt q i).pos.1 - 1) (recAt q i).pos.2
    ((m.cells (recAt q i).pos.1 (recAt q i).pos.2).cost + 1) with hR4
  obtain ⟨t4, ht4⟩ := so4.ext
  have hi4 : i < R4.2.length := by rw [ht4, List.length_append]; omega
  have hrec4 : recAt R4.2 i = recAt q i := by
    rw [ht4, recAt_append_left R3.2 t4 i hi3, hrec3]
  have hcost4 : costAt R4.1 (recAt q i).pos = costAt m (recAt q i).pos := by
    rw [← hcost3]
    exact so4.keep _ (by rw [← hrec3]; exact so3.inv.q_set _ (recAt_mem R3.2 i hi3))
  have hkeep41 : ∀ p : Int × Int, 0 ≤ costAt R1.1 p → costAt R4.1 p = costAt R1.1 p := by
    intro p hp
    have h2 := so2.keep p hp
    have h3 := so3.keep p (by rw [h2]; exact hp)
    have h4 := so4.keep p (by rw [h3, h2]; exact hp)
    rw [h4, h3, h2]
  have hkeep42 : ∀ p : Int × Int, 0 ≤ costAt R2.1 p → costAt R4.1 p = costAt R2.1 p := by
    intro p hp
    have h3 := so3.keep p hp
    have h4 := so4.keep p (by rw [h3]; exact hp)
    rw [h4, h3]
  have hkeep43 : ∀ p : Int × Int, 0 ≤ costAt R3.1 p → costAt R4.1 p = costAt R3.1 p :=
    fun p hp => so4.keep p hp
  have hexp : ∀ p : Int × Int, adj (recAt R4.2 i).pos p → InB g p.1 p.2 →
      (g.cells p.1 p.2).type = PATH →
      0 ≤ costAt R4.1 p ∧ costAt R4.1 p ≤ costAt R4.1 (recAt R4.2 i).pos + 1 := by
    intro p hadjp hpinb hpop
    rw [hrec4] at hadjp
    rw [hrec4, hcost4]
    rcases hadjp with h | h | h | h
    · subst h
      obtain ⟨hlo, hup⟩ := cov1 hpinb hpop
      rw [hkeep41 _ hlo]
      exact ⟨hlo, hup⟩
    · subst h
      obtain ⟨hlo, hup⟩ := cov2 hpinb hpop
      rw [hrec1, hcost1] at hup
      rw [hkeep42 _ hlo]
      exact ⟨hlo, hup⟩
    · subst h
      obtain ⟨hlo, hup⟩ := cov3 hpinb hpop
      rw [hrec2, hcost2] at hup
      rw [hkeep43 _ hlo]
      exact ⟨hlo, hup⟩
    · subst h
      obtain ⟨hlo, hup⟩ := cov4 hpinb hpop
      rw [hrec3, hcost3] at hup
      exact ⟨hlo, hup⟩
  have hfin : expand m q i = R4 := rfl
  rw [hfin]
  refine ⟨inv_succ g R4.1 R4.2 i so4.inv hi4 hexp, ⟨t1 ++ t2 ++ t3 ++ t4, ?_⟩, ?_⟩
  · rw [ht4, ht3, ht2, ht1]
    simp [List.append_assoc]
  · intro p hp
    have h1 := so1.keep p hp
    have h2 := so2.keep p (by rw [h1]; exact hp)
    have h3 := so3.keep p (by rw [h2, h1]; exact hp)
    have h4 := so4.keep p (by rw [h3, h2, h1]; exact hp)
    rw [h4, h3, h2, h1]

/-! ### Run-level lemmas: the flood preserves the invariant and converges -/

theorem recursive_flood_zero (m : maze_t) (q : List rec_t) (i : Nat) :
    recursive_flood 0 m q i = (m, q) := rfl

theorem recursive_flood_succ (fuel : Nat) (m : maze_t) (q : List rec_t) (i : Nat) :
    recursive_flood (fuel + 1) m q i =
      if i < q.length then
        recursive_flood fuel (expand m q i).1 (expand m q i).2 (i + 1)
      else (m, q) := rfl

theorem valid_cell_of_inb (g : maze_t) (hg : ValidMaze g) (x y : Int)
    (h : InB g x y) : ValidCell (g.cells x y) := by
  obtain ⟨h1, h2, h3, h4, h5, h6, h7⟩ := hg
  obtain ⟨ha, hb, hc, hd⟩ := h
  have h8 := h7 x.toNat (by omega) y.toNat (by omega)
  rw [Int.toNat_of_nonneg ha, Int.toNat_of_nonneg hc] at h8
  exact h8

theorem rc_toNat (g : maze_t) (hg : ValidMaze g) :
    (g.rows * g.cols).toNat = g.rows.toNat * g.cols.toNat := by
  have h1 : (1 : Int) ≤ g.rows := hg.1
  have h2 : (1 : Int) ≤ g.cols := hg.2.2.1
  have h3 : ((g.rows.toNat * g.cols.toNat : Nat) : Int) = g.rows * g.cols := by
    push_cast
    rw [Int.toNat_of_nonneg (by omega), Int.toNat_of_nonneg (by omega)]
  omega

theorem queue_length_bound (g m : maze_t) (q : List rec_t) (i : Nat)
    (hInv : FloodInv g m q i) : q.length ≤ (g.rows * g.cols).toNat := by
  classical
  have hval := hInv.valid
  set S : Finset (Int × Int) :=
    Finset.Icc 0 (g.rows - 1) ×ˢ Finset.Icc 0 (g.cols - 1) with hS
  have hsub : (q.map rec_t.pos).toFinset ⊆ S := by
    intro p hp
    rw [List.mem_toFinset] at hp
    rcases List.mem_map.mp hp with ⟨r, hr, hrp⟩
    have hib := hInv.q_inb r hr
    unfold InB at hib
    rw [hS, Finset.mem_product, Finset.mem_Icc, Finset.mem_Icc, ← hrp]
    omega
  have hcard : (q.map rec_t.pos).toFinset.card = q.length := by
    rw [List.toFinset_card_of_nodup hInv.q_nodup, List.length_map]
  have hScard : S.card = (g.rows * g.cols).toNat := by
    rw [hS, Finset.card_product, Int.card_Icc, Int.card_Icc, rc_toNat g hval]
    have h1 : (1 : Int) ≤ g.rows := hval.1
    have h2 : (1 : Int) ≤ g.cols := hval.2.2.1
    have e1 : g.rows - 1 + 1 - 0 = g.rows := by omega
    have e2 : g.cols - 1 + 1 - 0 = g.cols := by omega
    rw [e1, e2]
  have := Finset.card_le_card hsub
  omega

theorem run_inv (g : maze_t) : ∀ (fuel : Nat) (m : maze_t) (q : List rec_t) (i : Nat),
    FloodInv g m q i → (g.rows * g.cols).toNat ≤ fuel + i →
    FloodInv g (recursive_flood fuel m q i).1 (recursive_flood fuel m q i).2
      (recursive_flood fuel m q i).2.length := by
  intro fuel
  induction fuel with
  | zero =>
    intro m q i hInv hfu
    have hlen := queue_length_bound g m q i hInv
    have hle := hInv.i_le
    have : i = q.length := by omega
    subst this
    exact hInv
  | succ fuel ih =>
    intro m q i hInv hfu
    rw [recursive_flood_succ]
    by_cases h : i < q.length
    · rw [if_pos h]
      obtain ⟨hinv2, _, _⟩ := expand_pres g m q i hInv h
      exact ih (expand m q i).1 (expand m q i).2 (i + 1) hinv2 (by omega)
    · rw [if_neg h]
      have hle := hInv.i_le
      have : i = q.length := by omega
      subst this
      exact hInv

theorem run_stable (g : maze_t) : ∀ (fuel : Nat) (m : maze_t) (q : List rec_t) (i : Nat),
    FloodInv g m q i → (g.rows * g.cols).toNat ≤ fuel + i →
    ∀ extra : Nat, recursive_flood (fuel + extra) m q i = recursive_flood fuel m q i := by
  intro fuel
  induction fuel with
  | zero =>
    intro m q i hInv hfu extra
    have hlen := queue_length_bound g m q i hInv
    have hle := hInv.i_le
    have hieq : i = q.length := by omega
    cases extra with
    | zero => rfl
    | succ e =>
      have h0 : (0 : Nat) + (e + 1) = e + 1 := by omega
      rw [h0, recursive_flood_succ, if_neg (by omega), recursive_flood_zero]
  | succ fuel ih =>
    intro m q i hInv hfu extra
    have hcomm : fuel + 1 + extra = (fuel + extra) + 1 := by omega
    rw [hcomm, recursive_flood_succ, recursive_flood_succ]
    by_cases h : i < q.length
    · rw [if_pos h, if_pos h]
      obtain ⟨hinv2, _, _⟩ := expand_pres g m q i hInv h
      exact ih (expand m q i).1 (expand m q i).2 (i + 1) hinv2 (by omega) extra
    · rw [if_neg h, if_neg h]

/-! ### Seeding the queue with the entrances establishes the invariant -/

theorem find_entries_zero (m : maze_t) (x y : Int) (q : List rec_t) :
    find_entries m x y q 0 = (m, q) := rfl

theorem find_entries_succ (m : maze_t) (x y : Int) (q : List rec_t) (lim : Nat) :
    find_entries m x y q (lim + 1) =
      if (m.cells x y).type = PATH then
        find_entries (updCell m x y fun c => { c with reach := true, cost := 0 })
          x (y + 1) (q ++ [⟨(x, y), none⟩]) lim
      else
        find_entries m x (y + 1) q lim := rfl

theorem mem_elim_rec (q : List rec_t) (r : rec_t) (h : r ∈ q) :
    ∃ j, j < q.length ∧ recAt q j = r := by
  rcases List.mem_iff_getElem.mp h with ⟨j, hj, hjr⟩
  exact ⟨j, hj, by unfold recAt; rw [List.getD_eq_getElem _ _ hj, hjr]⟩

theorem find_entries_general (g : maze_t) (hg : ValidMaze g) :
    ∀ (lim : Nat) (y : Int) (m : maze_t) (q : List rec_t),
    0 ≤ y → y + (lim : Int) = g.cols →
    m.rows = g.rows → m.cols = g.cols → m.cost = g.cost → m.soln = g.soln →
    (∀ a b : Int, (m.cells a b).type = (g.cells a b).type) →
    (∀ a b : Int, (m.cells a b).soln = (g.cells a b).soln) →
    (∀ a b : Int, ¬ InB g a b → m.cells a b = g.cells a b) →
    (∀ a b : Int, InB g a b → a = 0 → b < y → (g.cells a b).type = PATH →
        (m.cells a b).cost = 0 ∧ (m.cells a b).reach = true) →
    (∀ a b : Int, InB g a b → ¬ (a = 0 ∧ b < y ∧ (g.cells a b).type = PATH) →
        (m.cells a b).cost = -1 ∧ (m.cells a b).reach = false) →
    (∀ j : Nat, j < q.length → (recAt q j).parent = none ∧ (recAt q j).pos.1 = 0 ∧
        0 ≤ (recAt q j).pos.2 ∧ (recAt q j).pos.2 < y ∧
        (g.cells 0 (recAt q j).pos.2).type = PATH) →
    (∀ b : Int, 0 ≤ b → b < y → (g.cells 0 b).type = PATH →
        ((0 : Int), b) ∈ q.map rec_t.pos) →
    (q.map rec_t.pos).Nodup →
    FloodInv g (find_entries m 0 y q lim).1 (find_entries m 0 y q lim).2 0 := by
  intro lim
  induction lim with
  | zero =>
    intro y m q hy0 hycol hrows hcols hmc hms htype hsoln hoob hset hunset hq hqmem hnodup
    show FloodInv g m q 0
    have hycols : y = g.cols := by push_cast at hycol; omega
    subst hycols
    have hrows1 : (1 : Int) ≤ g.rows := hg.1
    have hposfacts : ∀ j, j < q.length → InB g (recAt q j).pos.1 (recAt q j).pos.2 ∧
        costAt m (recAt q j).pos = 0 := by
      intro j hj
      obtain ⟨hpar, hp1, hp2a, hp2b, hpop⟩ := hq j hj
      have hinb : InB g (recAt q j).pos.1 (recAt q j).pos.2 := by
        unfold InB
        rw [hp1]
        omega
      refine ⟨hinb, ?_⟩
      have := hset (recAt q j).pos.1 (recAt q j).pos.2 hinb hp1 hp2b (by rw [hp1]; exact hpop)
      unfold costAt
      exact this.1
    refine {
      valid := hg
      rows_eq := hrows
      cols_eq := hcols
      mcost_eq := hmc
      msoln_eq := hms
      type_eq := htype
      cellsoln_eq := hsoln
      oob_eq := hoob
      cost_shape := ?_
      reach_iff := ?_
      q_inb := ?_
      q_set := ?_
      q_mem := ?_
      q_nodup := hnodup
      q_mono := ?_
      q_window := ?_
      q_parent := ?_
      i_le := Nat.zero_le _
      expanded := by intro j hj; omega
      entr0 := ?_ }
    · intro a b hinb
      by_cases hcase : a = 0 ∧ b < g.cols ∧ (g.cells a b).type = PATH
      · right
        obtain ⟨h1, h2⟩ := hset a b hinb hcase.1 hcase.2.1 hcase.2.2
        rw [h1]
        exact ⟨by omega, hcase.2.2⟩
      · left
        exact (hunset a b hinb hcase).1
    · intro a b hinb
      by_cases hcase : a = 0 ∧ b < g.cols ∧ (g.cells a b).type = PATH
      · obtain ⟨h1, h2⟩ := hset a b hinb hcase.1 hcase.2.1 hcase.2.2
        rw [h1, h2]
        constructor
        · intro _; omega
        · intro _; rfl
      · obtain ⟨h1, h2⟩ := hunset a b hinb hcase
        rw [h1, h2]
        constructor
        · intro h; exact absurd h (by simp)
        · intro h; exact absurd h (by omega)
    · intro r hr
      rcases mem_elim_rec q r hr with ⟨j, hj, hjr⟩
      rw [← hjr]
      exact (hposfacts j hj).1
    · intro r hr
      rcases mem_elim_rec q r hr with ⟨j, hj, hjr⟩
      rw [← hjr]
      rw [(hposfacts j hj).2]
    · intro a b hinb hge
      by_cases hcase : a = 0 ∧ b < g.cols ∧ (g.cells a b).type = PATH
      · obtain ⟨rfl, hblt, hop⟩ := hcase
        exact hqmem b (by exact hinb.2.2.1) hblt hop
      · obtain ⟨h1, _⟩ := hunset a b hinb hcase
        omega
    · intro j k hjk hk
      rw [(hposfacts j (by omega)).2, (hposfacts k hk).2]
    · intro j hj hi0
      rw [(hposfacts j hj).2, (hposfacts 0 hi0).2]
      omega
    · intro j hj
      obtain ⟨hpar, hp1, hp2a, hp2b, hpop⟩ := hq j hj
      unfold ParentOK
      rw [hpar]
      exact ⟨hp1, (hposfacts j hj).2⟩
    · intro b hinb hop
      have := hset 0 b hinb rfl (by exact hinb.2.2.2) hop
      exact this.1
  | succ lim ih =>
    intro y m q hy0 hycol hrows hcols hmc hms htype hsoln hoob hset hunset hq hqmem hnodup
    have hylt : y < g.cols := by push_cast at hycol; omega
    have hycol2 : (y + 1) + (lim : Int) = g.cols := by push_cast at hycol ⊢; omega
    rw [find_entries_succ]
    by_cases hty : (m.cells 0 y).type = PATH
    · rw [if_pos hty]
      have hopg : (g.cells 0 y).type = PATH := by rw [← htype 0 y]; exact hty
      have hyinb : InB g 0 y := by
        unfold InB
        have := hg.1
        omega
      set m1 := updCell m 0 y fun c => { c with reach := true, cost := 0 } with hm1
      set nr : rec_t := ⟨(0, y), none⟩ with hnr
      have hnotmem : ((0 : Int), y) ∉ q.map rec_t.pos := by
        intro hmem
        rcases pos_mem_elim q _ hmem with ⟨j, hj, hjp⟩
        have := (hq j hj).2.2.2.1
        rw [hjp] at this
        omega
      refine ih (y + 1) m1 (q ++ [nr]) (by omega) hycol2 hrows hcols hmc hms ?_ ?_ ?_ ?_ ?_ ?_ ?_ ?_
      · intro a b
        rw [hm1, updCell_cells]
        split
        · exact htype a b
        · exact htype a b
      · intro a b
        rw [hm1, updCell_cells]
        split
        · exact hsoln a b
        · exact hsoln a b
      · intro a b hnib
        have hne2 : (a, b) ≠ ((0 : Int), y) := by
          rintro h
          rw [Prod.mk.injEq] at h
          obtain ⟨rfl, rfl⟩ := h
          exact hnib hyinb
        rw [hm1, updCell_cells_ne _ _ _ _ _ _ hne2]
        exact hoob a b hnib
      · intro a b hinb ha0 hblt hop
        by_cases hab : (a, b) = ((0 : Int), y)
        · rw [Prod.mk.injEq] at hab
          obtain ⟨rfl, rfl⟩ := hab
          rw [hm1, updCell_cells_same]
          exact ⟨rfl, rfl⟩
        · have hbne : b ≠ y := by
            rintro rfl
            apply hab
            rw [ha0]
          have hblt2 : b < y := by omega
          rw [hm1, updCell_cells_ne _ _ _ _ _ _ hab]
          exact hset a b hinb ha0 hblt2 hop
      · intro a b hinb hnot
        have hab : (a, b) ≠ ((0 : Int), y) := by
          rintro h
          rw [Prod.mk.injEq] at h
          obtain ⟨rfl, rfl⟩ := h
          exact hnot ⟨rfl, by omega, hopg⟩
        rw [hm1, updCell_cells_ne _ _ _ _ _ _ hab]
        refine hunset a b hinb ?_
        rintro ⟨rfl, hblt, hop⟩
        exact hnot ⟨rfl, by omega, hop⟩
      · intro j hj
        rw [List.length_append, List.length_singleton] at hj
        by_cases hjL : j < q.length
        · rw [recAt_append_left q [nr] j hjL]
          obtain ⟨h1, h2, h3, h4, h5⟩ := hq j hjL
          exact ⟨h1, h2, h3, by omega, h5⟩
        · have hjeq : j = q.length := by omega
          subst hjeq
          rw [recAt_append_self q nr, hnr]
          refine ⟨rfl, rfl, ?_, ?_, hopg⟩
          · show (0 : Int) ≤ y
            exact hy0
          · show y < y + 1
            omega
      · intro b hb0 hblt hop
        rw [List.map_append]
        by_cases hbe : b = y
        · subst hbe
          refine List.mem_append.mpr (Or.inr ?_)
          simp [hnr]
        · refine List.mem_append.mpr (Or.inl ?_)
          exact hqmem b hb0 (by omega) hop
      · rw [List.map_append]
        refine List.Nodup.append hnodup (List.nodup_singleton _) ?_
        intro p hp hp2
        rw [show ([nr].map rec_t.pos) = [((0 : Int), y)] from rfl, List.mem_singleton] at hp2
        rw [hp2] at hp
        exact hnotmem hp
    · rw [if_neg hty]
      have hopg : (g.cells 0 y).type ≠ PATH := by rw [← htype 0 y]; exact hty
      refine ih (y + 1) m q (by omega) hycol2 hrows hcols hmc hms htype hsoln hoob ?_ ?_ ?_ ?_ hnodup
      · intro a b hinb ha0 hblt hop
        have hbne : b ≠ y := by
          rintro rfl
          rw [ha0] at hop
          exact hopg hop
        exact hset a b hinb ha0 (by omega) hop
      · intro a b hinb hnot
        refine hunset a b hinb ?_
        rintro ⟨rfl, hblt, hop⟩
        exact hnot ⟨rfl, by omega, hop⟩
      · intro j hj
        obtain ⟨h1, h2, h3, h4, h5⟩ := hq j hj
        exact ⟨h1, h2, h3, by omega, h5⟩
      · intro b hb0 hblt hop
        have hbne : b ≠ y := by
          rintro rfl
          exact hopg hop
        exact hqmem b hb0 (by omega) hop

theorem find_entries_inv (g : maze_t) (hg : ValidMaze g) :
    FloodInv g (find_entries g 0 0 [] g.cols.toNat).1
      (find_entries g 0 0 [] g.cols.toNat).2 0 := by
  refine find_entries_general g hg g.cols.toNat 0 g [] (by omega) ?_ rfl rfl rfl rfl
    (fun a b => rfl) (fun a b => rfl) (fun a b _ => rfl) ?_ ?_ ?_ ?_ ?_
  · have := hg.2.2.1
    rw [Int.toNat_of_nonneg (by omega)]
    omega
  · intro a b hinb ha0 hblt hop
    obtain ⟨h1, h2, h3, h4⟩ := hinb
    exact absurd hblt (by omega)
  · intro a b hinb hnot
    have hv := valid_cell_of_inb g hg a b hinb
    exact ⟨hv.2.1, hv.2.2.1⟩
  · intro j hj
    simp at hj
  · intro b hb0 hblt hop
    exact absurd hblt (by omega)
  · simp

/-! ### Final-state facts: costs are exactly the BFS distances -/

theorem flood_final (g : maze_t) (hg : ValidMaze g) :
    FloodInv g (floodState g).1 (floodState g).2 (floodState g).2.length := by
  unfold floodState seedState
  have hseed := find_entries_inv g hg
  have hfu : ((find_entries g 0 0 [] g.cols.toNat).1.rows *
      (find_entries g 0 0 [] g.cols.toNat).1.cols).toNat = (g.rows * g.cols).toNat := by
    rw [hseed.rows_eq, hseed.cols_eq]
  rw [hfu]
  exact run_inv g _ _ _ 0 hseed (by omega)

theorem queue_reachin (g m : maze_t) (q : List rec_t) (i : Nat)
    (hInv : FloodInv g m q i) :
    ∀ j, j < q.length → ReachIn g (costAt m (recAt q j).pos).toNat (recAt q j).pos := by
  intro j
  induction j using Nat.strong_induction_on with
  | _ j ih =>
    intro hj
    have hP := hInv.q_parent j hj
    unfold ParentOK at hP
    have hinbj := hInv.q_inb _ (recAt_mem q j hj)
    have hsetj := hInv.q_set _ (recAt_mem q j hj)
    have hopj : (g.cells (recAt q j).pos.1 (recAt q j).pos.2).type = PATH := by
      rcases hInv.cost_shape _ _ hinbj with h | h
      · unfold costAt at hsetj
        omega
      · exact h.2
    cases hpp : (recAt q j).parent with
    | none =>
      rw [hpp] at hP
      obtain ⟨h0, hc⟩ := hP
      have hpos : (recAt q j).pos = ((0 : Int), (recAt q j).pos.2) := by rw [← h0]
      have hop2 : (g.cells 0 (recAt q j).pos.2).type = PATH := by
        rw [← h0]
        exact hopj
      rw [hc, hpos]
      have hinb2 := hinbj
      unfold InB at hinb2
      exact ReachIn.entry _ hinb2.2.2.1 hinb2.2.2.2 hop2
    | some pa =>
      rw [hpp] at hP
      obtain ⟨hpa, hadjp, hc⟩ := hP
      have hparent := ih pa hpa (by omega)
      have hc0 : 0 ≤ costAt m (recAt q pa).pos :=
        hInv.q_set _ (recAt_mem q pa (by omega))
      rw [hc]
      have htn : (costAt m (recAt q pa).pos + 1).toNat =
          (costAt m (recAt q pa).pos).toNat + 1 := by omega
      rw [htn]
      exact ReachIn.step _ _ _ hparent hadjp hinbj hopj

theorem reachin_inb (g : maze_t) (hg : ValidMaze g) :
    ∀ (n : Nat) (p : Int × Int), ReachIn g n p →
      InB g p.1 p.2 ∧ (g.cells p.1 p.2).type = PATH := by
  intro n p h
  induction h with
  | entry y hy0 hyc hop =>
    have h1 := hg.1
    exact ⟨⟨by omega, by omega, hy0, hyc⟩, hop⟩
  | step n' p' r hr hadj hinb hop ih =>
    exact ⟨hinb, hop⟩

theorem final_upper (g m : maze_t) (q : List rec_t)
    (hInv : FloodInv g m q q.length) :
    ∀ (n : Nat) (p : Int × Int), ReachIn g n p →
      0 ≤ costAt m p ∧ costAt m p ≤ (n : Int) := by
  intro n
  induction n with
  | zero =>
    intro p hp
    cases hp with
    | entry y hy0 hyc hop =>
      have h1 : (1 : Int) ≤ g.rows := hInv.valid.1
      have hinb : InB g 0 y := ⟨by omega, by omega, hy0, hyc⟩
      have h0c := hInv.entr0 y hinb hop
      rw [costAt_mk, h0c]
      omega
  | succ n ihn =>
    intro p hp
    cases hp with
    | step n' p' r hp' hadj hinb hop =>
      obtain ⟨h0, hle⟩ := ihn p' hp'
      obtain ⟨hinb', hop'⟩ := reachin_inb g hInv.valid n p' hp'
      have hmem := hInv.q_mem p'.1 p'.2 hinb' h0
      rcases pos_mem_elim q p' hmem with ⟨j, hj, hjp⟩
      have hexp := hInv.expanded j hj p (by rw [hjp]; exact hadj) hinb hop
      rw [hjp] at hexp
      obtain ⟨he0, he1⟩ := hexp
      refine ⟨he0, ?_⟩
      push_cast
      omega

/-! ### Open-path lists and the reachability oracle agree -/

theorem isOpenPath_head (g : maze_t) (p : Int × Int) (L : List (Int × Int))
    (h : IsOpenPath g (p :: L)) :
    InB g p.1 p.2 ∧ (g.cells p.1 p.2).type = PATH := by
  cases L with
  | nil => exact ⟨h.1, h.2⟩
  | cons b L' => exact ⟨h.1, h.2.1⟩

theorem isOpenPath_append (g : maze_t) :
    ∀ (L : List (Int × Int)) (p r : Int × Int), IsOpenPath g L →
      L.getLast? = some p → adj p r → InB g r.1 r.2 →
      (g.cells r.1 r.2).type = PATH →
      IsOpenPath g (L ++ [r]) ∧ (L ++ [r]).getLast? = some r ∧
        (L ++ [r]).head? = L.head? := by
  intro L
  induction L with
  | nil => intro p r h; exact absurd h (by exact fun h => h)
  | cons a L' ih =>
    intro p r h hlast hadj hinb hop
    cases L' with
    | nil =>
      have hpa : p = a := by
        rw [List.getLast?_singleton] at hlast
        exact (Option.some_inj.mp hlast).symm
      subst hpa
      exact ⟨⟨h.1, h.2, hadj, hinb, hop⟩, rfl, rfl⟩
    | cons b L'' =>
      obtain ⟨h1, h2, h3, h4⟩ := h
      have hlast2 : (b :: L'').getLast? = some p := by
        rw [List.getLast?_cons_cons] at hlast
        exact hlast
      obtain ⟨ih1, ih2, ih3⟩ := ih p r h4 hlast2 hadj hinb hop
      refine ⟨⟨h1, h2, h3, ih1⟩, ?_, rfl⟩
      rw [List.cons_append, List.cons_append, List.getLast?_cons_cons]
      rw [List.cons_append] at ih2
      exact ih2

theorem reachin_to_path (g : maze_t) (hg : ValidMaze g) :
    ∀ (n : Nat) (p : Int × Int), ReachIn g n p →
      ∃ L : List (Int × Int), IsOpenPath g L ∧
        (∃ e : Int × Int, L.head? = some e ∧ e.1 = 0) ∧ L.getLast? = some p := by
  intro n p h
  induction h with
  | entry y hy0 hyc hop =>
    have h1 : (1 : Int) ≤ g.rows := hg.1
    refine ⟨[(0, y)], ⟨⟨by omega, by omega, hy0, hyc⟩, hop⟩, ⟨(0, y), rfl, rfl⟩, rfl⟩
  | step n' p' r hr hadj hinb hop ih =>
    obtain ⟨L, hL, ⟨e, he, he0⟩, hlast⟩ := ih
    obtain ⟨a1, a2, a3⟩ := isOpenPath_append g L p' r hL hlast hadj hinb hop
    exact ⟨L ++ [r], a1, ⟨e, by rw [a3]; exact he, he0⟩, a2⟩

theorem path_to_reachin_aux (g : maze_t) :
    ∀ (L : List (Int × Int)) (p : Int × Int) (n : Nat),
      IsOpenPath g (p :: L) → ReachIn g n p →
      ∀ z : Int × Int, (p :: L).getLast? = some z → ∃ k : Nat, ReachIn g k z := by
  intro L
  induction L with
  | nil =>
    intro p n _ hp z hz
    rw [List.getLast?_singleton] at hz
    rw [← Option.some_inj.mp hz]
    exact ⟨n, hp⟩
  | cons b L' ih =>
    intro p n h hp z hz
    obtain ⟨h1, h2, h3, h4⟩ := h
    obtain ⟨hb1, hb2⟩ := isOpenPath_head g b L' h4
    have hb : ReachIn g (n + 1) b := ReachIn.step n p b hp h3 hb1 hb2
    rw [List.getLast?_cons_cons] at hz
    exact ih b (n + 1) h4 hb z hz

theorem path_to_reachin (g : maze_t) (L : List (Int × Int)) (p : Int × Int)
    (hL : IsOpenPath g L) (hhead : ∃ e : Int × Int, L.head? = some e ∧ e.1 = 0)
    (hlast : L.getLast? = some p) :
    ∃ k : Nat, ReachIn g k p := by
  obtain ⟨e, he, he0⟩ := hhead
  cases L with
  | nil => exact absurd he (by simp)
  | cons a L' =>
    have hea : e = a := by
      rw [List.head?_cons] at he
      exact (Option.some_inj.mp he).symm
    subst hea
    obtain ⟨ha1, ha2⟩ := isOpenPath_head g e L' hL
    have hre : ReachIn g 0 e := by
      have hpos : e = ((0 : Int), e.2) := by rw [← he0]
      rw [hpos]
      rw [hpos] at ha2
      unfold InB at ha1
      exact ReachIn.entry e.2 ha1.2.2.1 ha1.2.2.2 ha2
    exact path_to_reachin_aux g L' e 0 hL hre p hlast

/-! ### The exit selector returns the leftmost lowest-cost candidate -/

theorem find_exit_zero (m : maze_t) (x y : Int) (ex : Option (Int × Int)) (cost : Int) :
    find_exit m x y ex cost 0 = ex := rfl

theorem find_exit_succ (m : maze_t) (x y : Int) (ex : Option (Int × Int))
    (cost : Int) (lim : Nat) :
    find_exit m x y ex cost (lim + 1) =
      if (m.cells x y).type = PATH ∧ (m.cells x y).reach = true ∧
          (cost < 0 ∨ (0 ≤ (m.cells x y).cost ∧ (m.cells x y).cost < cost)) then
        find_exit m x (y + 1) (some (x, y)) ((m.cells x y).cost) lim
      else
        find_exit m x (y + 1) ex cost lim := rfl

theorem find_exit_spec (m : maze_t) (x : Int)
    (hcost : ∀ y : Int, ExitCand m x y → 0 ≤ (m.cells x y).cost) :
    ∀ (lim : Nat) (y : Int) (ex : Option (Int × Int)) (cost : Int),
    0 ≤ y → y + (lim : Int) = m.cols →
    ((ex = none ∧ cost = -1 ∧ ∀ b : Int, b < y → ¬ ExitCand m x b) ∨
     (∃ p : Int, ex = some (x, p) ∧ ExitCand m x p ∧ p < y ∧
        cost = (m.cells x p).cost ∧ 0 ≤ cost ∧
        (∀ b : Int, ExitCand m x b → b < y → cost ≤ (m.cells x b).cost) ∧
        (∀ b : Int, ExitCand m x b → b < y → (m.cells x b).cost = cost → p ≤ b))) →
    ((find_exit m x y ex cost lim = none ∧ ∀ b : Int, ¬ ExitCand m x b) ∨
     (∃ p : Int, find_exit m x y ex cost lim = some (x, p) ∧ ExitCand m x p ∧
        (∀ b : Int, ExitCand m x b → (m.cells x p).cost ≤ (m.cells x b).cost) ∧
        (∀ b : Int, ExitCand m x b → (m.cells x b).cost = (m.cells x p).cost →
          p ≤ b))) := by
  intro lim
  induction lim with
  | zero =>
    intro y ex cost hy0 hycol hacc
    rw [find_exit_zero]
    rcases hacc with ⟨rfl, hcm1, hnone⟩ | ⟨p, rfl, hpc, hplt, hpcost, hpge, hmin, hleft⟩
    · left
      refine ⟨rfl, ?_⟩
      intro b hb
      refine hnone b ?_ hb
      obtain ⟨hb1, hb2, _, _⟩ := hb
      omega
    · right
      refine ⟨p, rfl, hpc, ?_, ?_⟩
      · intro b hb
        have hblt : b < y := by
          obtain ⟨_, hb2, _, _⟩ := hb
          omega
        have := hmin b hb hblt
        omega
      · intro b hb hbe
        have hblt : b < y := by
          obtain ⟨_, hb2, _, _⟩ := hb
          omega
        exact hleft b hb hblt (by omega)
  | succ lim ih =>
    intro y ex cost hy0 hycol hacc
    have hylt : y < m.cols := by push_cast at hycol; omega
    have hycol2 : (y + 1) + (lim : Int) = m.cols := by push_cast at hycol ⊢; omega
    rw [find_exit_succ]
    by_cases hcand : ExitCand m x y
    · obtain ⟨_, _, hty, hre⟩ := hcand
      have hc0 : 0 ≤ (m.cells x y).cost := hcost y ⟨hy0, hylt, hty, hre⟩
      rcases hacc with ⟨rfl, rfl, hnone⟩ | ⟨p, rfl, hpc, hplt, hpcost, hpge, hmin, hleft⟩
      · rw [if_pos ⟨hty, hre, Or.inl (by omega)⟩]
        refine ih (y + 1) (some (x, y)) ((m.cells x y).cost) (by omega) hycol2 ?_
        right
        refine ⟨y, rfl, ⟨hy0, hylt, hty, hre⟩, by omega, rfl, hc0, ?_, ?_⟩
        · intro b hb hblt
          by_cases hbe : b = y
          · subst hbe
            omega
          · exact absurd hb (hnone b (by omega))
        · intro b hb hblt hbe
          by_cases hby : b = y
          · omega
          · exact absurd hb (hnone b (by omega))
      · by_cases hlt : (m.cells x y).cost < cost
        · rw [if_pos ⟨hty, hre, Or.inr ⟨hc0, hlt⟩⟩]
          refine ih (y + 1) (some (x, y)) ((m.cells x y).cost) (by omega) hycol2 ?_
          right
          refine ⟨y, rfl, ⟨hy0, hylt, hty, hre⟩, by omega, rfl, hc0, ?_, ?_⟩
          · intro b hb hblt
            by_cases hbe : b = y
            · subst hbe
              omega
            · have := hmin b hb (by omega)
              omega
          · intro b hb hblt hbe
            by_cases hby : b = y
            · omega
            · have := hmin b hb (by omega)
              omega
        · rw [if_neg (by
            rintro ⟨_, _, hor⟩
            rcases hor with h | h
            · omega
            · exact hlt h.2)]
          refine ih (y + 1) (some (x, p)) cost (by omega) hycol2 ?_
          right
          refine ⟨p, rfl, hpc, by omega, hpcost, hpge, ?_, ?_⟩
          · intro b hb hblt
            by_cases hbe : b = y
            · subst hbe
              omega
            · exact hmin b hb (by omega)
          · intro b hb hblt hbe
            by_cases hby : b = y
            · subst hby
              omega
            · exact hleft b hb (by omega) hbe
    · have hnotc : ¬ ((m.cells x y).type = PATH ∧ (m.cells x y).reach = true ∧
          (cost < 0 ∨ (0 ≤ (m.cells x y).cost ∧ (m.cells x y).cost < cost))) := by
        rintro ⟨h1, h2, _⟩
        exact hcand ⟨hy0, hylt, h1, h2⟩
      rw [if_neg hnotc]
      rcases hacc with ⟨rfl, rfl, hnone⟩ | ⟨p, rfl, hpc, hplt, hpcost, hpge, hmin, hleft⟩
      · refine ih (y + 1) none (-1) (by omega) hycol2 ?_
        left
        refine ⟨rfl, rfl, ?_⟩
        intro b hblt
        by_cases hbe : b = y
        · subst hbe
          exact hcand
        · exact hnone b (by omega)
      · refine ih (y + 1) (some (x, p)) cost (by omega) hycol2 ?_
        right
        refine ⟨p, rfl, hpc, by omega, hpcost, hpge, ?_, ?_⟩
        · intro b hb hblt
          by_cases hbe : b = y
          · subst hbe
            exact absurd hb hcand
          · exact hmin b hb (by omega)
        · intro b hb hblt hbe
          by_cases hby : b = y
          · subst hby
            exact absurd hb hcand
          · exact hleft b hb (by omega) hbe

/-! ### Path reconstruction: unfolding equations -/

theorem getq (Q : List rec_t) (j : Nat) (h : j < Q.length) :
    Q[j]? = some (recAt Q j) := by
  unfold recAt
  rw [List.getElem?_eq_getElem h, List.getD_eq_getElem _ _ h]

theorem shortest_path_none (Q : List rec_t) :
    ∀ (fuel : Nat) (m : maze_t) (ex : Option (Int × Int)),
      shortest_path Q fuel m none ex = (m, -1) := by
  intro fuel m ex
  cases fuel with
  | zero => rfl
  | succ f => rfl

theorem shortest_path_found (Q : List rec_t) (fuel : Nat) (m : maze_t) (j : Nat)
    (r : rec_t) (ex : Option (Int × Int)) (hr : Q[j]? = some r)
    (hex : ex = none ∨ ex = some r.pos) :
    shortest_path Q (fuel + 1) m (some j) ex =
      ((shortest_path Q fuel
          (updCell m r.pos.1 r.pos.2 (fun c => { c with soln := true }))
          r.parent none).1,
        1 + (shortest_path Q fuel
          (updCell m r.pos.1 r.pos.2 (fun c => { c with soln := true }))
          r.parent none).2) := by
  conv_lhs => rw [shortest_path]
  rw [hr]
  dsimp only
  rw [if_pos hex]

theorem shortest_path_skip (Q : List rec_t) (fuel : Nat) (m : maze_t) (j : Nat)
    (r : rec_t) (ex : Option (Int × Int)) (hr : Q[j]? = some r)
    (hex : ¬ (ex = none ∨ ex = some r.pos)) :
    shortest_path Q (fuel + 1) m (some j) ex =
      shortest_path Q fuel m (some (j + 1)) ex := by
  conv_lhs => rw [shortest_path]
  rw [hr]
  dsimp only
  rw [if_neg hex]

/-! ### Backtracking the parent chain marks one shortest path -/

theorem backtrack_spec (g F : maze_t) (Q : List rec_t)
    (hInv : FloodInv g F Q Q.length) :
    ∀ (j : Nat), j < Q.length → ∀ (fuel : Nat), j + 1 ≤ fuel → ∀ (m : maze_t),
    ∃ L : List (Int × Int),
      (shortest_path Q fuel m (some j) none).2 = costAt F (recAt Q j).pos ∧
      L.head? = some (recAt Q j).pos ∧
      (∃ e : Int × Int, L.getLast? = some e ∧ e.1 = 0) ∧
      List.Chain' (fun a b => adj b a) L ∧
      (∀ p ∈ L, InB g p.1 p.2 ∧ (g.cells p.1 p.2).type = PATH) ∧
      List.Pairwise (fun a b => costAt F b < costAt F a) L ∧
      (∀ p ∈ L, costAt F p ≤ costAt F (recAt Q j).pos) ∧
      (L.length : Int) = costAt F (recAt Q j).pos + 1 ∧
      (∀ a b : Int,
        (((shortest_path Q fuel m (some j) none).1.cells a b).soln = true ↔
          ((a, b) ∈ L ∨ (m.cells a b).soln = true))) ∧
      (∀ a b : Int,
        ((shortest_path Q fuel m (some j) none).1.cells a b).cost = (m.cells a b).cost ∧
        ((shortest_path Q fuel m (some j) none).1.cells a b).reach = (m.cells a b).reach ∧
        ((shortest_path Q fuel m (some j) none).1.cells a b).type = (m.cells a b).type) ∧
      ((shortest_path Q fuel m (some j) none).1.rows = m.rows ∧
        (shortest_path Q fuel m (some j) none).1.cols = m.cols ∧
        (shortest_path Q fuel m (some j) none).1.cost = m.cost ∧
        (shortest_path Q fuel m (some j) none).1.soln = m.soln) := by
  intro j
  induction j using Nat.strong_induction_on with
  | _ j ih =>
    intro hj fuel hfuel m
    cases fuel with
    | zero => omega
    | succ f =>
    rw [shortest_path_found Q f m j (recAt Q j) none (getq Q j hj) (Or.inl rfl)]
    have hP := hInv.q_parent j hj
    unfold ParentOK at hP
    have hinbj := hInv.q_inb _ (recAt_mem Q j hj)
    have hsetj := hInv.q_set _ (recAt_mem Q j hj)
    have hopj : (g.cells (recAt Q j).pos.1 (recAt Q j).pos.2).type = PATH := by
      rcases hInv.cost_shape _ _ hinbj with h | h
      · unfold costAt at hsetj
        omega
      · exact h.2
    set pos := (recAt Q j).pos with hposdef
    set m1 := updCell m pos.1 pos.2 (fun c => { c with soln := true }) with hm1def
    have hm1soln : ∀ a b : Int, ((m1.cells a b).soln = true ↔
        ((a, b) = pos ∨ (m.cells a b).soln = true)) := by
      intro a b
      by_cases hab : (a, b) = pos
      · have ha : a = pos.1 := congrArg Prod.fst hab
        have hb : b = pos.2 := congrArg Prod.snd hab
        subst ha
        subst hb
        rw [hm1def, updCell_cells_same]
        constructor
        · intro _
          exact Or.inl hab
        · intro _
          rfl
      · rw [hm1def, updCell_cells_ne m pos.1 pos.2 _ a b hab]
        constructor
        · exact fun h => Or.inr h
        · rintro (h | h)
          · exact absurd h hab
          · exact h
    have hm1keep : ∀ a b : Int, (m1.cells a b).cost = (m.cells a b).cost ∧
        (m1.cells a b).reach = (m.cells a b).reach ∧
        (m1.cells a b).type = (m.cells a b).type := by
      intro a b
      by_cases hab : (a, b) = pos
      · have ha : a = pos.1 := congrArg Prod.fst hab
        have hb : b = pos.2 := congrArg Prod.snd hab
        subst ha
        subst hb
        rw [hm1def, updCell_cells_same]
        exact ⟨rfl, rfl, rfl⟩
      · rw [hm1def, updCell_cells_ne m pos.1 pos.2 _ a b hab]
        exact ⟨rfl, rfl, rfl⟩
    cases hpp : (recAt Q j).parent with
    | none =>
      rw [hpp] at hP
      obtain ⟨hp0, hpc⟩ := hP
      rw [shortest_path_none Q f m1 none]
      dsimp only
      refine ⟨[pos], ?_, rfl, ⟨pos, rfl, hp0⟩, List.chain'_singleton _, ?_, ?_, ?_, ?_,
        ?_, ?_, ?_⟩
      · rw [hpc]
        omega
      · intro p hp
        rw [List.mem_singleton] at hp
        subst hp
        exact ⟨hinbj, hopj⟩
      · exact List.pairwise_singleton _ _
      · intro p hp
        rw [List.mem_singleton] at hp
        subst hp
        exact le_refl _
      · rw [List.length_singleton, hpc]
        omega
      · intro a b
        rw [List.mem_singleton]
        exact hm1soln a b
      · exact hm1keep
      · rw [hm1def]
        exact ⟨rfl, rfl, rfl, rfl⟩
    | some pa =>
      rw [hpp] at hP
      obtain ⟨hpa, hadjp, hcp⟩ := hP
      obtain ⟨L', hret, hhead, hlast, hchain, hmem, hpw, hbound, hlen, hsoln, hkeepf,
        hkeepm⟩ := ih pa hpa (by omega) f (by omega) m1
      have hsetpa := hInv.q_set _ (recAt_mem Q pa (by omega))
      have hL'ne : L' ≠ [] := by
        intro h
        rw [h] at hhead
        exact absurd hhead (by simp)
      dsimp only
      refine ⟨pos :: L', ?_, rfl, ?_, ?_, ?_, ?_, ?_, ?_, ?_, ?_, ?_⟩
      · rw [hret, hcp]
        omega
      · obtain ⟨e, he, he0⟩ := hlast
        have hglc : (pos :: L').getLast? = L'.getLast? := by
          cases L' with
          | nil => exact absurd rfl hL'ne
          | cons z t => rw [List.getLast?_cons_cons]
        exact ⟨e, by rw [hglc]; exact he, he0⟩
      · rw [List.chain'_cons']
        constructor
        · intro z hz
          rw [hhead] at hz
          have hz2 : z = (recAt Q pa).pos := by
            cases hz
            rfl
          subst hz2
          exact hadjp
        · exact hchain
      · intro p hp
        rcases List.mem_cons.mp hp with h | h
        · subst h
          exact ⟨hinbj, hopj⟩
        · exact hmem p h
      · rw [List.pairwise_cons]
        constructor
        · intro b hb
          have := hbound b hb
          rw [hcp]
          omega
        · exact hpw
      · intro p hp
        rcases List.mem_cons.mp hp with h | h
        · subst h
          exact le_refl _
        · have := hbound p h
          rw [hcp]
          omega
      · rw [List.length_cons]
        push_cast
        rw [hcp]
        omega
      · intro a b
        rw [hsoln a b, List.mem_cons, hm1soln a b]
        tauto
      · intro a b
        obtain ⟨k1, k2, k3⟩ := hkeepf a b
        obtain ⟨l1, l2, l3⟩ := hm1keep a b
        exact ⟨by rw [k1, l1], by rw [k2, l2], by rw [k3, l3]⟩
      · obtain ⟨w1, w2, w3, w4⟩ := hkeepm
        rw [hm1def] at w1 w2 w3 w4
        exact ⟨w1, w2, w3, w4⟩

/-! ### The scan phase reaches the unique record of the exit cell -/

theorem nodup_pos_ne (Q : List rec_t) (hnd : (Q.map rec_t.pos).Nodup)
    (j j' : Nat) (hj : j < Q.length) (hj' : j' < Q.length) (hne : j ≠ j') :
    (recAt Q j).pos ≠ (recAt Q j').pos := by
  intro heq
  have hjm : j < (Q.map rec_t.pos).length := by rw [List.length_map]; exact hj
  have hjm' : j' < (Q.map rec_t.pos).length := by rw [List.length_map]; exact hj'
  have h1 : (Q.map rec_t.pos).get ⟨j, hjm⟩ = (recAt Q j).pos := by
    rw [List.get_map]
    unfold recAt
    rw [List.getD_eq_getElem _ _ hj]
    rfl
  have h2 : (Q.map rec_t.pos).get ⟨j', hjm'⟩ = (recAt Q j').pos := by
    rw [List.get_map]
    unfold recAt
    rw [List.getD_eq_getElem _ _ hj']
    rfl
  have h3 : (Q.map rec_t.pos).get ⟨j, hjm⟩ = (Q.map rec_t.pos).get ⟨j', hjm'⟩ := by
    rw [h1, h2, heq]
  have h4 := (List.Nodup.get_inj_iff hnd).mp h3
  rw [Fin.mk.injEq] at h4
  exact hne h4

theorem sp_found_swap (Q : List rec_t) (j : Nat) (hj : j < Q.length) (ex : Int × Int)
    (hpos : (recAt Q j).pos = ex) :
    ∀ (fuel : Nat) (m : maze_t),
      shortest_path Q fuel m (some j) (some ex) =
        shortest_path Q fuel m (some j) none := by
  intro fuel m
  cases fuel with
  | zero => rfl
  | succ f =>
    rw [shortest_path_found Q f m j (recAt Q j) (some ex) (getq Q j hj)
        (Or.inr (by rw [hpos])),
      shortest_path_found Q f m j (recAt Q j) none (getq Q j hj) (Or.inl rfl)]

theorem scan_spec (Q : List rec_t) (ex : Int × Int) (j0 : Nat) (hj0 : j0 < Q.length) :
    ∀ (d k fuel : Nat), j0 = k + d →
    (∀ j' : Nat, k ≤ j' → j' < j0 → (recAt Q j').pos ≠ ex) →
    d + 1 ≤ fuel →
    ∀ m : maze_t, shortest_path Q fuel m (some k) (some ex) =
      shortest_path Q (fuel - d) m (some j0) (some ex) := by
  intro d
  induction d with
  | zero =>
    intro k fuel hk hskip hfu m
    have hkj : k = j0 := by omega
    subst hkj
    rfl
  | succ d ihd =>
    intro k fuel hk hskip hfu m
    cases fuel with
    | zero => omega
    | succ f =>
      have hklt : k < j0 := by omega
      have hkQ : k < Q.length := by omega
      rw [shortest_path_skip Q f m k (recAt Q k) (some ex) (getq Q k hkQ) ?_]
      · have h2 := ihd (k + 1) f (by omega)
          (fun j' ha hb => hskip j' (by omega) hb) (by omega) m
        rw [h2]
        have hfe : (f + 1) - (d + 1) = f - d := by omega
        rw [hfe]
      · rintro (h | h)
        · exact absurd h (by simp)
        · have hx : (recAt Q k).pos = ex := by
            rw [Option.some_inj] at h
            exact h.symm
          exact hskip k (by omega) hklt hx

/-! ### The full path-reconstruction call, from the head of the queue -/

theorem pathState_spec (g : maze_t) (hg : ValidMaze g) (ex : Int × Int)
    (hexinb : InB g ex.1 ex.2)
    (hexcost : 0 ≤ costAt (floodState g).1 ex) :
    ∃ L : List (Int × Int),
      (pathState g ex).2 = costAt (floodState g).1 ex ∧
      L.head? = some ex ∧
      (∃ e : Int × Int, L.getLast? = some e ∧ e.1 = 0) ∧
      List.Chain' (fun a b => adj b a) L ∧
      (∀ p ∈ L, InB g p.1 p.2 ∧ (g.cells p.1 p.2).type = PATH) ∧
      List.Pairwise (fun a b =>
        costAt (floodState g).1 b < costAt (floodState g).1 a) L ∧
      (∀ p ∈ L, costAt (floodState g).1 p ≤ costAt (floodState g).1 ex) ∧
      (L.length : Int) = costAt (floodState g).1 ex + 1 ∧
      (∀ a b : Int,
        (((pathState g ex).1.cells a b).soln = true ↔
          ((a, b) ∈ L ∨ ((floodState g).1.cells a b).soln = true))) ∧
      (∀ a b : Int,
        ((pathState g ex).1.cells a b).cost = ((floodState g).1.cells a b).cost ∧
        ((pathState g ex).1.cells a b).reach = ((floodState g).1.cells a b).reach ∧
        ((pathState g ex).1.cells a b).type = ((floodState g).1.cells a b).type) ∧
      ((pathState g ex).1.rows = (floodState g).1.rows ∧
        (pathState g ex).1.cols = (floodState g).1.cols ∧
        (pathState g ex).1.cost = (floodState g).1.cost ∧
        (pathState g ex).1.soln = (floodState g).1.soln) := by
  have hInv := flood_final g hg
  have hmem := hInv.q_mem ex.1 ex.2 hexinb hexcost
  rcases pos_mem_elim (floodState g).2 ex hmem with ⟨j0, hj0, hjp⟩
  have hscan := scan_spec (floodState g).2 ex j0 hj0 j0 0
    (2 * (floodState g).2.length + 2) (by omega)
    (fun j' ha hb => by
      have hne := nodup_pos_ne (floodState g).2 hInv.q_nodup j' j0
        (by omega) hj0 (by omega)
      rw [hjp] at hne
      exact hne)
    (by omega) (floodState g).1
  have hswap := sp_found_swap (floodState g).2 j0 hj0 ex hjp
    (2 * (floodState g).2.length + 2 - j0) (floodState g).1
  obtain ⟨L, b1, b2, b3, b4, b5, b6, b7, b8, b9, b10, b11⟩ :=
    backtrack_spec g (floodState g).1 (floodState g).2 hInv j0 hj0
      (2 * (floodState g).2.length + 2 - j0) (by omega) (floodState g).1
  rw [hjp] at b1 b2 b7 b8
  refine ⟨L, ?_, b2, b3, b4, b5, b6, b7, b8, ?_, ?_, ?_⟩
  · show (pathState g ex).2 = costAt (floodState g).1 ex
    unfold pathState
    rw [hscan, hswap]
    exact b1
  · intro a b
    have : (pathState g ex).1 =
        (shortest_path (floodState g).2 (2 * (floodState g).2.length + 2 - j0)
          (floodState g).1 (some j0) none).1 := by
      unfold pathState
      rw [hscan, hswap]
    rw [this]
    exact b9 a b
  · intro a b
    have : (pathState g ex).1 =
        (shortest_path (floodState g).2 (2 * (floodState g).2.length + 2 - j0)
          (floodState g).1 (some j0) none).1 := by
      unfold pathState
      rw [hscan, hswap]
    rw [this]
    exact b10 a b
  · have : (pathState g ex).1 =
        (shortest_path (floodState g).2 (2 * (floodState g).2.length + 2 - j0)
          (floodState g).1 (some j0) none).1 := by
      unfold pathState
      rw [hscan, hswap]
    rw [this]
    exact b11

/-! ### Glue: the traverse stages -/

theorem traverse_some (g : maze_t) (ex : Int × Int) (hfe : exitOf g = some ex) :
    traverse_maze g =
      { (pathState g ex).1 with cost := (pathState g ex).2, soln := true } := by
  unfold traverse_maze
  rw [hfe]

theorem traverse_none (g : maze_t) (hfe : exitOf g = none) :
    traverse_maze g = (floodState g).1 := by
  unfold traverse_maze
  rw [hfe]

theorem exitOf_spec (g : maze_t) (hg : ValidMaze g) :
    (exitOf g = none ∧ ∀ b : Int, ¬ ExitCand (floodState g).1 (g.rows - 1) b) ∨
    (∃ p : Int, exitOf g = some (g.rows - 1, p) ∧
      ExitCand (floodState g).1 (g.rows - 1) p ∧
      (∀ b : Int, ExitCand (floodState g).1 (g.rows - 1) b →
        ((floodState g).1.cells (g.rows - 1) p).cost ≤
          ((floodState g).1.cells (g.rows - 1) b).cost) ∧
      (∀ b : Int, ExitCand (floodState g).1 (g.rows - 1) b →
        ((floodState g).1.cells (g.rows - 1) b).cost =
          ((floodState g).1.cells (g.rows - 1) p).cost → p ≤ b)) := by
  have hInv := flood_final g hg
  have hrw : exitOf g = find_exit (floodState g).1 (g.rows - 1) 0 none (-1)
      (floodState g).1.cols.toNat := by
    unfold exitOf
    rw [hInv.rows_eq]
  have hcost : ∀ y : Int, ExitCand (floodState g).1 (g.rows - 1) y →
      0 ≤ ((floodState g).1.cells (g.rows - 1) y).cost := by
    intro y hc
    obtain ⟨hc1, hc2, hc3, hc4⟩ := hc
    have hrows1 : (1 : Int) ≤ g.rows := hg.1
    have hinb : InB g (g.rows - 1) y := by
      unfold InB
      rw [hInv.cols_eq] at hc2
      omega
    exact (hInv.reach_iff (g.rows - 1) y hinb).mp hc4
  have hlim : (0 : Int) + ((floodState g).1.cols.toNat : Int) = (floodState g).1.cols := by
    rw [hInv.cols_eq]
    have : (1 : Int) ≤ g.cols := hg.2.2.1
    rw [Int.toNat_of_nonneg (by omega)]
    omega
  have hspec := find_exit_spec (floodState g).1 (g.rows - 1) hcost
    ((floodState g).1.cols.toNat) 0 none (-1) (by omega) hlim
    (Or.inl ⟨rfl, rfl, by
      intro b hb hcand
      obtain ⟨hb1, _, _, _⟩ := hcand
      omega⟩)
  rcases hspec with ⟨h1, h2⟩ | ⟨p, h1, h2, h3, h4⟩
  · left
    exact ⟨by rw [hrw]; exact h1, h2⟩
  · right
    exact ⟨p, by rw [hrw]; exact h1, h2, h3, h4⟩

theorem traverse_cells_flood (g : maze_t) (hg : ValidMaze g) :
    (∀ a b : Int,
      ((traverse_maze g).cells a b).cost = ((floodState g).1.cells a b).cost ∧
      ((traverse_maze g).cells a b).reach = ((floodState g).1.cells a b).reach ∧
      ((traverse_maze g).cells a b).type = ((floodState g).1.cells a b).type) ∧
    (traverse_maze g).rows = g.rows ∧ (traverse_maze g).cols = g.cols := by
  have hInv := flood_final g hg
  rcases exitOf_spec g hg with ⟨hnone, _⟩ | ⟨p, hsome, hcand, _, _⟩
  · rw [traverse_none g hnone]
    exact ⟨fun a b => ⟨rfl, rfl, rfl⟩, hInv.rows_eq, hInv.cols_eq⟩
  · rw [traverse_some g _ hsome]
    have hrows1 : (1 : Int) ≤ g.rows := hg.1
    have hinb : InB g (g.rows - 1) p := by
      obtain ⟨hc1, hc2, _, hc4⟩ := hcand
      unfold InB
      rw [hInv.cols_eq] at hc2
      omega
    have hcge : 0 ≤ costAt (floodState g).1 ((g.rows - 1), p) := by
      obtain ⟨_, _, _, hc4⟩ := hcand
      exact (hInv.reach_iff (g.rows - 1) p hinb).mp hc4
    obtain ⟨L, s1, s2, s3, s4, s5, s6, s7, s8, s9, s10, s11⟩ :=
      pathState_spec g hg ((g.rows - 1), p) hinb hcge
    refine ⟨fun a b => ?_, ?_, ?_⟩
    · exact s10 a b
    · rw [show ({ (pathState g ((g.rows - 1), p)).1 with
        cost := (pathState g ((g.rows - 1), p)).2, soln := true } : maze_t).rows =
        (pathState g ((g.rows - 1), p)).1.rows from rfl, s11.1, hInv.rows_eq]
    · rw [show ({ (pathState g ((g.rows - 1), p)).1 with
        cost := (pathState g ((g.rows - 1), p)).2, soln := true } : maze_t).cols =
        (pathState g ((g.rows - 1), p)).1.cols from rfl, s11.2.1, hInv.cols_eq]

theorem run_keep (g : maze_t) : ∀ (fuel : Nat) (m : maze_t) (q : List rec_t) (i : Nat),
    FloodInv g m q i → ∀ x y : Int, 0 ≤ (m.cells x y).cost →
    ((recursive_flood fuel m q i).1.cells x y).cost = (m.cells x y).cost := by
  intro fuel
  induction fuel with
  | zero => intro m q i _ x y _; rfl
  | succ fuel ih =>
    intro m q i hInv x y hge
    rw [recursive_flood_succ]
    by_cases h : i < q.length
    · rw [if_pos h]
      obtain ⟨hinv2, _, hkeep⟩ := expand_pres g m q i hInv h
      have hk := hkeep (x, y) hge
      rw [costAt_mk, costAt_mk] at hk
      rw [ih (expand m q i).1 (expand m q i).2 (i + 1) hinv2 x y (by rw [hk]; exact hge),
        hk]
    · rw [if_neg h]

/-! ### A maze with no entrance: the traversal is the identity -/

theorem find_entries_empty (g : maze_t)
    (hnoe : ∀ y : Int, 0 ≤ y → y < g.cols → (g.cells 0 y).type ≠ PATH) :
    ∀ (lim : Nat) (y : Int), 0 ≤ y → y + (lim : Int) = g.cols →
      find_entries g 0 y [] lim = (g, []) := by
  intro lim
  induction lim with
  | zero => intro y _ _; rfl
  | succ lim ih =>
    intro y hy0 hcol
    rw [find_entries_succ]
    have hylt : y < g.cols := by push_cast at hcol; omega
    rw [if_neg (hnoe y hy0 hylt)]
    exact ih (y + 1) (by omega) (by push_cast at hcol ⊢; omega)

theorem recursive_flood_empty (m : maze_t) :
    ∀ fuel : Nat, recursive_flood fuel m [] 0 = (m, []) := by
  intro fuel
  cases fuel with
  | zero => rfl
  | succ f =>
    rw [recursive_flood_succ, if_neg (by simp)]

/-! ### The claims -/

/-- C1: for every valid grid and in-bounds cell, after the traversal a present
cost (not the `-1` sentinel) equals the true shortest 4-directional hop count
from the nearest entrance, and every cell at finite true distance has its
cost present. -/
theorem C1_cost_exact (g : maze_t) (hg : ValidMaze g) (x y : Int)
    (hin : InB g x y) :
    (((traverse_maze g).cells x y).cost ≠ -1 →
      ∃ n : Nat, ((traverse_maze g).cells x y).cost = (n : Int) ∧
        ReachIn g n (x, y) ∧ ∀ k : Nat, ReachIn g k (x, y) → n ≤ k) ∧
    ((∃ k : Nat, ReachIn g k (x, y)) → ((traverse_maze g).cells x y).cost ≠ -1) := by
  have hInv := flood_final g hg
  obtain ⟨hcells, _, _⟩ := traverse_cells_flood g hg
  obtain ⟨hcost, _, _⟩ := hcells x y
  rw [hcost]
  constructor
  · intro hne
    have hge : 0 ≤ ((floodState g).1.cells x y).cost := by
      rcases hInv.cost_shape x y hin with h | h
      · exact absurd h hne
      · exact h.1
    refine ⟨((floodState g).1.cells x y).cost.toNat,
      by rw [Int.toNat_of_nonneg hge], ?_, ?_⟩
    · have hmem := hInv.q_mem x y hin hge
      rcases pos_mem_elim (floodState g).2 (x, y) hmem with ⟨j, hj, hjp⟩
      have hri := queue_reachin g (floodState g).1 (floodState g).2 _ hInv j hj
      rw [hjp, costAt_mk] at hri
      exact hri
    · intro k hk
      have hub := (final_upper g (floodState g).1 (floodState g).2 hInv k (x, y) hk).2
      rw [costAt_mk] at hub
      omega
  · rintro ⟨k, hk⟩
    have hub := (final_upper g (floodState g).1 (floodState g).2 hInv k (x, y) hk).1
    rw [costAt_mk] at hub
    omega

/-- C3: for every valid grid and in-bounds cell, after the traversal the
reachable flag is set exactly when a path of 4-adjacent open cells connects
the cell (itself included) to an entrance in row 0. -/
theorem C3_reach_iff_open_path (g : maze_t) (hg : ValidMaze g) (x y : Int)
    (hin : InB g x y) :
    (((traverse_maze g).cells x y).reach = true ↔
      ∃ L : List (Int × Int), IsOpenPath g L ∧
        (∃ e : Int × Int, L.head? = some e ∧ e.1 = 0) ∧
        L.getLast? = some (x, y)) := by
  have hInv := flood_final g hg
  obtain ⟨hcells, _, _⟩ := traverse_cells_flood g hg
  obtain ⟨_, hreach, _⟩ := hcells x y
  rw [hreach, hInv.reach_iff x y hin]
  constructor
  · intro hge
    have hmem := hInv.q_mem x y hin hge
    rcases pos_mem_elim (floodState g).2 (x, y) hmem with ⟨j, hj, hjp⟩
    have hri := queue_reachin g (floodState g).1 (floodState g).2 _ hInv j hj
    rw [hjp] at hri
    exact reachin_to_path g hg _ (x, y) hri
  · rintro ⟨L, hL, hhead, hlast⟩
    obtain ⟨k, hk⟩ := path_to_reachin g L (x, y) hL hhead hlast
    have hub := (final_upper g (floodState g).1 (floodState g).2 hInv k (x, y) hk).1
    rw [costAt_mk] at hub
    exact hub

/-- C9: for every valid grid and in-bounds cell, after the traversal the
reachable flag agrees exactly with the presence of a cost: the two fields
never disagree once traversal has finished. -/
theorem C9_reach_iff_cost_present (g : maze_t) (hg : ValidMaze g) (x y : Int)
    (hin : InB g x y) :
    (((traverse_maze g).cells x y).reach = true ↔
      0 ≤ ((traverse_maze g).cells x y).cost) := by
  have hInv := flood_final g hg
  obtain ⟨hcells, _, _⟩ := traverse_cells_flood g hg
  obtain ⟨hcost, hreach, _⟩ := hcells x y
  rw [hcost, hreach]
  exact hInv.reach_iff x y hin

/-- C6: the visit guard accepts only a strictly smaller proposed cost, so a
tie or larger proposal leaves the stored cost (and the queue) unchanged; and
along the whole flood a cost that has been set is never raised. -/
theorem C6_cost_never_raised :
    (∀ (m : maze_t) (q : List rec_t) (i : Nat) (x y c : Int),
      0 ≤ (m.cells x y).cost → (m.cells x y).cost ≤ c →
      ((visit_cell m q i x y c).1.cells x y).cost = (m.cells x y).cost ∧
      (visit_cell m q i x y c).2 = q) ∧
    (∀ (g m : maze_t) (q : List rec_t) (i fuel : Nat) (x y : Int),
      FloodInv g m q i → 0 ≤ (m.cells x y).cost →
      ((recursive_flood fuel m q i).1.cells x y).cost ≤ (m.cells x y).cost ∧
      0 ≤ ((recursive_flood fuel m q i).1.cells x y).cost) := by
  constructor
  · intro m q i x y c hge hle
    rw [visit_cell_eq, if_neg (by push_neg; exact ⟨by omega, by omega⟩)]
    constructor
    · show ((updCell m x y (fun cc => { cc with reach := true })).cells x y).cost =
        (m.cells x y).cost
      rw [updCell_cells_same]
    · rfl
  · intro g m q i fuel x y hInv hge
    have hk := run_keep g fuel m q i hInv x y hge
    omega

/-- C7 (amended): a visit always marks its target cell reachable, but the
flood only ever visits Open cells — a Wall cell, neighbor of an expanded
open cell or not, is never marked reachable. -/
theorem C7_reach_only_open (g : maze_t) :
    (∀ (m : maze_t) (q : List rec_t) (i : Nat) (x y c : Int),
      ((visit_cell m q i x y c).1.cells x y).reach = true) ∧
    (ValidMaze g → ∀ x y : Int, InB g x y → (g.cells x y).type = WALL →
      ((traverse_maze g).cells x y).reach = false) := by
  constructor
  · intro m q i x y c
    rw [visit_cell_eq]
    by_cases h : (m.cells x y).cost < 0 ∨ c < (m.cells x y).cost
    · rw [if_pos h]
      show ((updCell m x y
        (fun cc => { cc with reach := true, cost := c })).cells x y).reach = true
      rw [updCell_cells_same]
    · rw [if_neg h]
      show ((updCell m x y (fun cc => { cc with reach := true })).cells x y).reach = true
      rw [updCell_cells_same]
  · intro hg x y hin hwall
    have hInv := flood_final g hg
    obtain ⟨hcells, _, _⟩ := traverse_cells_flood g hg
    obtain ⟨_, hreach, _⟩ := hcells x y
    rw [hreach]
    by_contra hne
    rw [Bool.not_eq_false] at hne
    have hge := (hInv.reach_iff x y hin).mp hne
    rcases hInv.cost_shape x y hin with h | h
    · omega
    · have hc : WALL = PATH := by
        rw [← hwall]
        exact h.2
      exact absurd hc (by decide)

/-- C7 (counterexample): in the 2×2 maze `".#"` / `"##"` the entrance (0,0)
is Open and expanded by the flood, its in-bounds right neighbor (0,1) is a
Wall, and after the traversal that Wall neighbor is NOT marked reachable —
the claim that Wall neighbors are marked reachable fails. -/
theorem C7_counterexample :
    (mazeWallNbr.cells 0 1).type = WALL ∧ InB mazeWallNbr 0 1 ∧
    (mazeWallNbr.cells 0 0).type = PATH ∧
    ((traverse_maze mazeWallNbr).cells 0 0).reach = true ∧
    ((traverse_maze mazeWallNbr).cells 0 0).cost = 0 ∧
    ((traverse_maze mazeWallNbr).cells 0 1).reach = false := by
  decide

/-- C10: a valid grid whose first row has no Open cell floods an empty
frontier: the traversal returns the maze unchanged, with no solution, the
solution cost never assigned, no cell reachable and every cost absent. -/
theorem C10_no_entrance (g : maze_t) (hg : ValidMaze g)
    (hnoe : ∀ y : Int, 0 ≤ y → y < g.cols → (g.cells 0 y).type ≠ PATH) :
    traverse_maze g = g ∧ (traverse_maze g).soln = false ∧
    (traverse_maze g).cost = 0 ∧
    (∀ x y : Int, InB g x y → ((traverse_maze g).cells x y).reach = false ∧
      ((traverse_maze g).cells x y).cost = -1) := by
  have hseed : seedState g = (g, []) := by
    unfold seedState
    refine find_entries_empty g hnoe g.cols.toNat 0 (by omega) ?_
    have h1 : (1 : Int) ≤ g.cols := hg.2.2.1
    rw [Int.toNat_of_nonneg (by omega)]
    omega
  have hflood : floodState g = (g, []) := by
    unfold floodState
    rw [hseed]
    exact recursive_flood_empty g _
  have hexit : exitOf g = none := by
    rcases exitOf_spec g hg with ⟨h1, _⟩ | ⟨p, h1, hcand, _, _⟩
    · exact h1
    · exfalso
      rw [hflood] at hcand
      obtain ⟨hc1, hc2, _, hc4⟩ := hcand
      have hrows1 : (1 : Int) ≤ g.rows := hg.1
      have hinb : InB g (g.rows - 1) p := ⟨by omega, by omega, hc1, hc2⟩
      have hv := valid_cell_of_inb g hg (g.rows - 1) p hinb
      have hc4b : (g.cells (g.rows - 1) p).reach = true := hc4
      rw [hv.2.2.1] at hc4b
      exact absurd hc4b (by simp)
  have htrav : traverse_maze g = g := by
    rw [traverse_none g hexit, hflood]
  refine ⟨htrav, ?_, ?_, ?_⟩
  · rw [htrav]
    exact hg.2.2.2.2.2.1
  · rw [htrav]
    exact hg.2.2.2.2.1
  · intro x y hin
    rw [htrav]
    have hv := valid_cell_of_inb g hg x y hin
    exact ⟨hv.2.2.1, hv.2.1⟩

theorem visit_cell_dims (m : maze_t) (q : List rec_t) (i : Nat) (x y c : Int) :
    (visit_cell m q i x y c).1.rows = m.rows ∧
    (visit_cell m q i x y c).1.cols = m.cols := by
  rw [visit_cell_eq]
  split
  · exact ⟨rfl, rfl⟩
  · exact ⟨rfl, rfl⟩

theorem fr_checked_dims (m : maze_t) (q : List rec_t) (i : Nat) (x y c : Int) :
    (flood_right_checked m q i x y c).1.rows = m.rows ∧
    (flood_right_checked m q i x y c).1.cols = m.cols := by
  unfold flood_right_checked
  split
  · exact visit_cell_dims m q i x y c
  · exact ⟨rfl, rfl⟩

/-- C5: the flood terminates — with fuel `rows*cols` the computation has
converged (any extra fuel returns the same final state), because a record is
appended only when a cell's cost goes from absent to present or strictly
decreases, so the queue never exceeds `rows*cols` records and the single
linear pass expands every record. -/
theorem C5_flood_terminates (g : maze_t) (hg : ValidMaze g) :
    (∀ extra : Nat,
      recursive_flood ((((seedState g).1.rows * (seedState g).1.cols).toNat) + extra)
        (seedState g).1 (seedState g).2 0 = floodState g) ∧
    (floodState g).2.length ≤ (g.rows * g.cols).toNat := by
  have hseed : FloodInv g (seedState g).1 (seedState g).2 0 := find_entries_inv g hg
  have hdim : (((seedState g).1.rows * (seedState g).1.cols).toNat) =
      (g.rows * g.cols).toNat := by
    rw [hseed.rows_eq, hseed.cols_eq]
  constructor
  · intro extra
    unfold floodState
    rw [hdim]
    exact run_stable g ((g.rows * g.cols).toNat) (seedState g).1 (seedState g).2 0
      hseed (by omega) extra
  · exact queue_length_bound g (floodState g).1 (floodState g).2 _ (flood_final g hg)

/-- C8: the four neighbor attempts carry a bounds check on the moving axis
only, and for a record whose cell is in bounds these single-axis guards are
equivalent to full two-axis bounds checks, so every cell access of the flood
is within the grid; and every record of a valid run is in bounds. -/
theorem C8_single_axis_guards_suffice :
    (∀ (m : maze_t) (q : List rec_t) (i : Nat),
      InB m (recAt q i).pos.1 (recAt q i).pos.2 →
      expand m q i = expandChecked m q i) ∧
    (∀ g : maze_t, ValidMaze g → ∀ r ∈ (floodState g).2, InB g r.pos.1 r.pos.2) := by
  constructor
  · intro m q i hib
    unfold expand expandChecked
    dsimp only
    set X := (recAt q i).pos.1 with hXd
    set Y := (recAt q i).pos.2 with hYd
    obtain ⟨h1, h2, h3, h4⟩ := hib
    set C := (m.cells X Y).cost + 1 with hCd
    rw [flood_right_eq_checked m q i X (Y + 1) C h1 h2 (by omega)]
    obtain ⟨d1r, d1c⟩ := fr_checked_dims m q i X (Y + 1) C
    set R1 := flood_right_checked m q i X (Y + 1) C with hR1
    rw [flood_down_eq_checked R1.1 R1.2 i (X + 1) Y C h3 (by rw [d1c]; exact h4)
      (by omega)]
    have d2 := fr_checked_dims R1.1 R1.2 i (X + 1) Y C
    rw [← flood_down_checked_eq] at d2
    obtain ⟨d2r, d2c⟩ := d2
    set R2 := flood_down_checked R1.1 R1.2 i (X + 1) Y C with hR2
    rw [flood_left_eq_checked R2.1 R2.2 i X (Y - 1) C h1
      (by rw [d2r, d1r]; exact h2) (by rw [d2c, d1c]; omega)]
    have d3 := fr_checked_dims R2.1 R2.2 i X (Y - 1) C
    rw [← flood_left_checked_eq] at d3
    obtain ⟨d3r, d3c⟩ := d3
    set R3 := flood_left_checked R2.1 R2.2 i X (Y - 1) C with hR3
    rw [flood_up_eq_checked R3.1 R3.2 i (X - 1) Y C h3
      (by rw [d3c, d2c, d1c]; exact h4) (by rw [d3r, d2r, d1r]; omega)]
  · intro g hg r hr
    exact (flood_final g hg).q_inb r hr

/-- C2: `has_solution` is set exactly when some last-row cell is Open and
reachable; when set, the stored solution cost equals the minimum cost among
all Open reachable last-row cells, and the leftmost cell attaining that
minimum is the selected exit (the marked endpoint of the solution path). -/
theorem C2_exit_selection (g : maze_t) (hg : ValidMaze g) :
    ((traverse_maze g).soln = true ↔
      ∃ y : Int, 0 ≤ y ∧ y < g.cols ∧ (g.cells (g.rows - 1) y).type = PATH ∧
        ((traverse_maze g).cells (g.rows - 1) y).reach = true) ∧
    ((traverse_maze g).soln = true →
      ∃ y0 : Int, 0 ≤ y0 ∧ y0 < g.cols ∧ (g.cells (g.rows - 1) y0).type = PATH ∧
        ((traverse_maze g).cells (g.rows - 1) y0).reach = true ∧
        (traverse_maze g).cost = ((traverse_maze g).cells (g.rows - 1) y0).cost ∧
        ((traverse_maze g).cells (g.rows - 1) y0).soln = true ∧
        (∀ y : Int, 0 ≤ y → y < g.cols → (g.cells (g.rows - 1) y).type = PATH →
          ((traverse_maze g).cells (g.rows - 1) y).reach = true →
          ((traverse_maze g).cells (g.rows - 1) y0).cost ≤
            ((traverse_maze g).cells (g.rows - 1) y).cost) ∧
        (∀ y : Int, 0 ≤ y → y < g.cols → (g.cells (g.rows - 1) y).type = PATH →
          ((traverse_maze g).cells (g.rows - 1) y).reach = true →
          ((traverse_maze g).cells (g.rows - 1) y).cost =
            ((traverse_maze g).cells (g.rows - 1) y0).cost → y0 ≤ y)) := by
  have hInv := flood_final g hg
  obtain ⟨hcells, _, _⟩ := traverse_cells_flood g hg
  have hcandF : ∀ y : Int,
      (0 ≤ y ∧ y < g.cols ∧ (g.cells (g.rows - 1) y).type = PATH ∧
        ((traverse_maze g).cells (g.rows - 1) y).reach = true) ↔
      ExitCand (floodState g).1 (g.rows - 1) y := by
    intro y
    unfold ExitCand
    rw [hInv.cols_eq, ← hInv.type_eq (g.rows - 1) y, (hcells (g.rows - 1) y).2.1]
  rcases exitOf_spec g hg with ⟨hnone, hnocand⟩ | ⟨p, hsome, hcand, hmin, hleft⟩
  · have hsf : (traverse_maze g).soln = false := by
      rw [traverse_none g hnone, hInv.msoln_eq, hg.2.2.2.2.2.1]
    constructor
    · constructor
      · intro h
        rw [hsf] at h
        exact absurd h (by simp)
      · rintro ⟨y, hy⟩
        exact absurd ((hcandF y).mp hy) (hnocand y)
    · intro h
      rw [hsf] at h
      exact absurd h (by simp)
  · have htrav := traverse_some g _ hsome
    have hsoln_true : (traverse_maze g).soln = true := by rw [htrav]
    have hrows1 : (1 : Int) ≤ g.rows := hg.1
    have hinb : InB g (g.rows - 1) p := by
      obtain ⟨hc1, hc2, _, _⟩ := hcand
      unfold InB
      rw [hInv.cols_eq] at hc2
      omega
    have hcge : 0 ≤ costAt (floodState g).1 ((g.rows - 1), p) := by
      obtain ⟨_, _, _, hc4⟩ := hcand
      exact (hInv.reach_iff (g.rows - 1) p hinb).mp hc4
    obtain ⟨L, s1, s2, s3, s4, s5, s6, s7, s8, s9, s10, s11⟩ :=
      pathState_spec g hg ((g.rows - 1), p) hinb hcge
    have hcellsP : ∀ a b : Int,
        (traverse_maze g).cells a b = (pathState g ((g.rows - 1), p)).1.cells a b := by
      intro a b
      rw [htrav]
    have hcandp : 0 ≤ p ∧ p < g.cols ∧ (g.cells (g.rows - 1) p).type = PATH ∧
        ((traverse_maze g).cells (g.rows - 1) p).reach = true :=
      (hcandF p).mpr hcand
    constructor
    · exact ⟨fun _ => ⟨p, hcandp⟩, fun _ => hsoln_true⟩
    · intro _
      obtain ⟨hp1, hp2, hp3, hp4⟩ := hcandp
      refine ⟨p, hp1, hp2, hp3, hp4, ?_, ?_, ?_, ?_⟩
      · have h1 : (traverse_maze g).cost = (pathState g ((g.rows - 1), p)).2 := by
          rw [htrav]
        rw [h1, s1, hcellsP (g.rows - 1) p, (s10 (g.rows - 1) p).1]
        rfl
      · rw [hcellsP (g.rows - 1) p]
        rw [s9 (g.rows - 1) p]
        left
        refine List.mem_of_mem_head? ?_
        rw [s2]
        rfl
      · intro y hy1 hy2 hy3 hy4
        have hcy := (hcandF y).mp ⟨hy1, hy2, hy3, hy4⟩
        have := hmin y hcy
        rw [hcellsP (g.rows - 1) p, (s10 (g.rows - 1) p).1,
          hcellsP (g.rows - 1) y, (s10 (g.rows - 1) y).1]
        exact this
      · intro y hy1 hy2 hy3 hy4 hye
        have hcy := (hcandF y).mp ⟨hy1, hy2, hy3, hy4⟩
        refine hleft y hcy ?_
        rw [hcellsP (g.rows - 1) p, (s10 (g.rows - 1) p).1,
          hcellsP (g.rows - 1) y, (s10 (g.rows - 1) y).1] at hye
        exact hye

/-- C4: with a solution present, the cells marked `on_solution_path` are
exactly a simple sequence of pairwise 4-adjacent Open cells from an entrance
(row 0) to the selected last-row exit, of exactly `solution_cost + 1` cells,
and the stored solution cost equals the exit cell's cost. -/
theorem C4_solution_path (g : maze_t) (hg : ValidMaze g)
    (hsol : (traverse_maze g).soln = true) :
    ∃ (L : List (Int × Int)) (y0 : Int),
      L ≠ [] ∧ List.Chain' adj L ∧ L.Nodup ∧
      (∀ p ∈ L, InB g p.1 p.2 ∧ (g.cells p.1 p.2).type = PATH) ∧
      (∃ e : Int × Int, L.head? = some e ∧ e.1 = 0) ∧
      L.getLast? = some ((g.rows - 1), y0) ∧
      (L.length : Int) = (traverse_maze g).cost + 1 ∧
      (traverse_maze g).cost = ((traverse_maze g).cells (g.rows - 1) y0).cost ∧
      (∀ x y : Int, InB g x y →
        (((traverse_maze g).cells x y).soln = true ↔ (x, y) ∈ L)) := by
  have hInv := flood_final g hg
  rcases exitOf_spec g hg with ⟨hnone, _⟩ | ⟨p, hsome, hcand, hmin, hleft⟩
  · exfalso
    rw [traverse_none g hnone, hInv.msoln_eq, hg.2.2.2.2.2.1] at hsol
    exact absurd hsol (by simp)
  · have htrav := traverse_some g _ hsome
    have hrows1 : (1 : Int) ≤ g.rows := hg.1
    have hinb : InB g (g.rows - 1) p := by
      obtain ⟨hc1, hc2, _, _⟩ := hcand
      unfold InB
      rw [hInv.cols_eq] at hc2
      omega
    have hcge : 0 ≤ costAt (floodState g).1 ((g.rows - 1), p) := by
      obtain ⟨_, _, _, hc4⟩ := hcand
      exact (hInv.reach_iff (g.rows - 1) p hinb).mp hc4
    obtain ⟨Lb, s1, s2, s3, s4, s5, s6, s7, s8, s9, s10, s11⟩ :=
      pathState_spec g hg ((g.rows - 1), p) hinb hcge
    have hcellsP : ∀ a b : Int,
        (traverse_maze g).cells a b = (pathState g ((g.rows - 1), p)).1.cells a b := by
      intro a b
      rw [htrav]
    have hLbne : Lb ≠ [] := by
      intro h
      rw [h] at s2
      exact absurd s2 (by simp)
    have hcostT : (traverse_maze g).cost = costAt (floodState g).1 ((g.rows - 1), p) := by
      rw [htrav]
      exact s1
    refine ⟨Lb.reverse, p, ?_, ?_, ?_, ?_, ?_, ?_, ?_, ?_, ?_⟩
    · rw [ne_eq, List.reverse_eq_nil_iff]
      exact hLbne
    · rw [List.chain'_reverse]
      exact s4
    · rw [List.nodup_reverse]
      refine List.Pairwise.imp ?_ s6
      intro a b hab heq
      rw [heq] at hab
      omega
    · intro r hr
      rw [List.mem_reverse] at hr
      exact s5 r hr
    · obtain ⟨e, he, he0⟩ := s3
      exact ⟨e, by rw [List.head?_reverse]; exact he, he0⟩
    · rw [List.getLast?_reverse]
      exact s2
    · rw [List.length_reverse, s8, hcostT]
    · rw [hcostT, hcellsP (g.rows - 1) p, (s10 (g.rows - 1) p).1]
      rfl
    · intro x y hin
      rw [List.mem_reverse, hcellsP x y, s9 x y]
      have hsolng : ((floodState g).1.cells x y).soln = false := by
        rw [hInv.cellsoln_eq]
        exact (valid_cell_of_inb g hg x y hin).2.2.2
      rw [hsolng]
      constructor
      · rintro (h | h)
        · exact h
        · exact absurd h (by simp)
      · intro h
        exact Or.inl h

/-! ### Concrete witnesses -/

/-- Witness for C1 at the all-open 2×2 maze, cell (1,0). -/
theorem C1_cost_exact_witness :
    ValidMaze mazeOpen2 ∧ InB mazeOpen2 1 0 ∧
    ((((traverse_maze mazeOpen2).cells 1 0).cost ≠ -1 →
      ∃ n : Nat, ((traverse_maze mazeOpen2).cells 1 0).cost = (n : Int) ∧
        ReachIn mazeOpen2 n (1, 0) ∧ ∀ k : Nat, ReachIn mazeOpen2 k (1, 0) → n ≤ k) ∧
    ((∃ k : Nat, ReachIn mazeOpen2 k (1, 0)) →
      ((traverse_maze mazeOpen2).cells 1 0).cost ≠ -1)) :=
  ⟨by decide, by decide, C1_cost_exact mazeOpen2 (by decide) 1 0 (by decide)⟩

/-- Witness for C2 at the 3×3 maze with two tied lowest-cost exits. -/
theorem C2_exit_selection_witness :
    ValidMaze mazeTie ∧
    (((traverse_maze mazeTie).soln = true ↔
      ∃ y : Int, 0 ≤ y ∧ y < mazeTie.cols ∧
        (mazeTie.cells (mazeTie.rows - 1) y).type = PATH ∧
        ((traverse_maze mazeTie).cells (mazeTie.rows - 1) y).reach = true) ∧
    ((traverse_maze mazeTie).soln = true →
      ∃ y0 : Int, 0 ≤ y0 ∧ y0 < mazeTie.cols ∧
        (mazeTie.cells (mazeTie.rows - 1) y0).type = PATH ∧
        ((traverse_maze mazeTie).cells (mazeTie.rows - 1) y0).reach = true ∧
        (traverse_maze mazeTie).cost =
          ((traverse_maze mazeTie).cells (mazeTie.rows - 1) y0).cost ∧
        ((traverse_maze mazeTie).cells (mazeTie.rows - 1) y0).soln = true ∧
        (∀ y : Int, 0 ≤ y → y < mazeTie.cols →
          (mazeTie.cells (mazeTie.rows - 1) y).type = PATH →
          ((traverse_maze mazeTie).cells (mazeTie.rows - 1) y).reach = true →
          ((traverse_maze mazeTie).cells (mazeTie.rows - 1) y0).cost ≤
            ((traverse_maze mazeTie).cells (mazeTie.rows - 1) y).cost) ∧
        (∀ y : Int, 0 ≤ y → y < mazeTie.cols →
          (mazeTie.cells (mazeTie.rows - 1) y).type = PATH →
          ((traverse_maze mazeTie).cells (mazeTie.rows - 1) y).reach = true →
          ((traverse_maze mazeTie).cells (mazeTie.rows - 1) y).cost =
            ((traverse_maze mazeTie).cells (mazeTie.rows - 1) y0).cost → y0 ≤ y))) :=
  ⟨by decide, C2_exit_selection mazeTie (by decide)⟩

/-- Witness for C3 at the all-open 2×2 maze, cell (1,1). -/
theorem C3_reach_iff_open_path_witness :
    ValidMaze mazeOpen2 ∧ InB mazeOpen2 1 1 ∧
    (((traverse_maze mazeOpen2).cells 1 1).reach = true ↔
      ∃ L : List (Int × Int), IsOpenPath mazeOpen2 L ∧
        (∃ e : Int × Int, L.head? = some e ∧ e.1 = 0) ∧
        L.getLast? = some (1, 1)) :=
  ⟨by decide, by decide, C3_reach_iff_open_path mazeOpen2 (by decide) 1 1 (by decide)⟩

/-- Witness for C4 at the all-open 2×2 maze. -/
theorem C4_solution_path_witness :
    ValidMaze mazeOpen2 ∧ (traverse_maze mazeOpen2).soln = true ∧
    (∃ (L : List (Int × Int)) (y0 : Int),
      L ≠ [] ∧ List.Chain' adj L ∧ L.Nodup ∧
      (∀ p ∈ L, InB mazeOpen2 p.1 p.2 ∧ (mazeOpen2.cells p.1 p.2).type = PATH) ∧
      (∃ e : Int × Int, L.head? = some e ∧ e.1 = 0) ∧
      L.getLast? = some ((mazeOpen2.rows - 1), y0) ∧
      (L.length : Int) = (traverse_maze mazeOpen2).cost + 1 ∧
      (traverse_maze mazeOpen2).cost =
        ((traverse_maze mazeOpen2).cells (mazeOpen2.rows - 1) y0).cost ∧
      (∀ x y : Int, InB mazeOpen2 x y →
        (((traverse_maze mazeOpen2).cells x y).soln = true ↔ (x, y) ∈ L))) :=
  ⟨by decide, by decide, C4_solution_path mazeOpen2 (by decide) (by decide)⟩

/-- Witness for C5 at the all-open 2×2 maze. -/
theorem C5_flood_terminates_witness :
    ValidMaze mazeOpen2 ∧
    ((∀ extra : Nat,
      recursive_flood
        ((((seedState mazeOpen2).1.rows * (seedState mazeOpen2).1.cols).toNat) + extra)
        (seedState mazeOpen2).1 (seedState mazeOpen2).2 0 = floodState mazeOpen2) ∧
    (floodState mazeOpen2).2.length ≤ (mazeOpen2.rows * mazeOpen2.cols).toNat) :=
  ⟨by decide, C5_flood_terminates mazeOpen2 (by decide)⟩

/-- Witness for C6: a tie revisit leaves the flooded entrance cost unchanged,
and the run from the seeded state never raises the entrance cost. -/
theorem C6_cost_never_raised_witness :
    (0 ≤ ((floodState mazeOpen2).1.cells 0 0).cost ∧
      ((floodState mazeOpen2).1.cells 0 0).cost ≤ 5 ∧
      (((visit_cell (floodState mazeOpen2).1 [] 0 0 0 5).1.cells 0 0).cost =
          ((floodState mazeOpen2).1.cells 0 0).cost ∧
        (visit_cell (floodState mazeOpen2).1 [] 0 0 0 5).2 = [])) ∧
    (FloodInv mazeOpen2 (seedState mazeOpen2).1 (seedState mazeOpen2).2 0 ∧
      0 ≤ ((seedState mazeOpen2).1.cells 0 0).cost ∧
      (((recursive_flood 4 (seedState mazeOpen2).1 (seedState mazeOpen2).2 0).1.cells
          0 0).cost ≤ ((seedState mazeOpen2).1.cells 0 0).cost ∧
        0 ≤ ((recursive_flood 4 (seedState mazeOpen2).1 (seedState mazeOpen2).2
          0).1.cells 0 0).cost)) :=
  ⟨⟨by decide, by decide,
    C6_cost_never_raised.1 (floodState mazeOpen2).1 [] 0 0 0 5 (by decide) (by decide)⟩,
   ⟨find_entries_inv mazeOpen2 (by decide), by decide,
    C6_cost_never_raised.2 mazeOpen2 (seedState mazeOpen2).1 (seedState mazeOpen2).2
      0 4 0 0 (find_entries_inv mazeOpen2 (by decide)) (by decide)⟩⟩

/-- Witness for C7 (amended): a visit marks its target reachable, and the
wall beside the entrance of `mazeWallNbr` ends unreachable. -/
theorem C7_reach_only_open_witness :
    (((visit_cell mazeOpen2 [] 0 0 0 1).1.cells 0 0).reach = true) ∧
    (ValidMaze mazeWallNbr ∧ InB mazeWallNbr 0 1 ∧
      (mazeWallNbr.cells 0 1).type = WALL ∧
      ((traverse_maze mazeWallNbr).cells 0 1).reach = false) :=
  ⟨(C7_reach_only_open mazeOpen2).1 mazeOpen2 [] 0 0 0 1,
   ⟨by decide, by decide, by decide,
    (C7_reach_only_open mazeWallNbr).2 (by decide) 0 1 (by decide) (by decide)⟩⟩

/-- Witness for C8 at a singleton queue over the all-open 2×2 maze. -/
theorem C8_single_axis_guards_suffice_witness :
    (InB mazeOpen2 (recAt [⟨(0, 0), none⟩] 0).pos.1 (recAt [⟨(0, 0), none⟩] 0).pos.2 ∧
      expand mazeOpen2 [⟨(0, 0), none⟩] 0 = expandChecked mazeOpen2 [⟨(0, 0), none⟩] 0) ∧
    (ValidMaze mazeOpen2 ∧
      ∀ r ∈ (floodState mazeOpen2).2, InB mazeOpen2 r.pos.1 r.pos.2) :=
  ⟨⟨by decide, C8_single_axis_guards_suffice.1 mazeOpen2 [⟨(0, 0), none⟩] 0 (by decide)⟩,
   ⟨by decide, C8_single_axis_guards_suffice.2 mazeOpen2 (by decide)⟩⟩

/-- Witness for C9 at the all-open 2×2 maze, cell (0,1). -/
theorem C9_reach_iff_cost_present_witness :
    ValidMaze mazeOpen2 ∧ InB mazeOpen2 0 1 ∧
    (((traverse_maze mazeOpen2).cells 0 1).reach = true ↔
      0 ≤ ((traverse_maze mazeOpen2).cells 0 1).cost) :=
  ⟨by decide, by decide, C9_reach_iff_cost_present mazeOpen2 (by decide) 0 1 (by decide)⟩

/-- Witness for C10 at the 2×2 maze whose top row is fully walled. -/
theorem C10_no_entrance_witness :
    ValidMaze mazeNoEntry ∧
    (∀ y : Int, 0 ≤ y → y < mazeNoEntry.cols → (mazeNoEntry.cells 0 y).type ≠ PATH) ∧
    (traverse_maze mazeNoEntry = mazeNoEntry ∧
      (traverse_maze mazeNoEntry).soln = false ∧
      (traverse_maze mazeNoEntry).cost = 0 ∧
      (∀ x y : Int, InB mazeNoEntry x y →
        ((traverse_maze mazeNoEntry).cells x y).reach = false ∧
        ((traverse_maze mazeNoEntry).cells x y).cost = -1)) :=
  ⟨by decide,
   by
    intro y h1 h2
    have h2b : y < 2 := h2
    interval_cases y <;> decide,
   C10_no_entrance mazeNoEntry (by decide)
    (by
      intro y h1 h2
      have h2b : y < 2 := h2
      interval_cases y <;> decide)⟩
